import Mathlib

/-!
# Verification of the `mac-organizer` file-organizing script

A shallow embedding of `src/organizer.py`: a background agent that watches
directories, classifies newly arrived files into category subfolders by
extension, removes content-duplicate files, and periodically archives stale
files into per-directory `archive.zip` bundles.

The filesystem is modelled explicitly: a path is a list of components, the
state is a finite association list of file paths to file data together with
a list of directory paths.  Python functions that can raise (`os.listdir`,
`os.remove`, `shutil.move`, `os.makedirs`, reading a file) are embedded as
`Except PyError` values; `process_file`'s `try`/`except` block is embedded
as an explicit `match` on the fallible body.  The SHA-256 digest is kept
abstract as a parameter `hash : List Nat → Nat`: all duplicate decisions in
the source depend only on equality of sizes and digests, never on the
digest's internals.  Times (`time.time()`, `os.path.getmtime`) are modelled
as integers.
-/

namespace Organizer

/-- A filesystem path, as its list of components (absolute, rooted at `[]`). -/
abbrev Path := List String

/-- The data stored for one regular file: its byte content and its
modification time (`none` models a file whose mtime cannot be read,
i.e. `os.path.getmtime` raising `OSError`). -/
structure FileData where
  content : List Nat
  mtime : Option Int
deriving Repr, DecidableEq

/-- Filesystem state: an association list of regular files and the list of
directories.  The root `[]` is implicitly always a directory. -/
structure FS where
  files : List (Path × FileData)
  dirs : List Path
deriving Repr, DecidableEq

/-- Errors raised by the modelled filesystem primitives (the `OSError`
subclasses the script can encounter). -/
inductive PyError where
  | fileNotFound (p : Path)
  | notADirectory (p : Path)
  | isADirectory (p : Path)
  | fileExists (p : Path)
deriving Repr, DecidableEq

def FS.lookupFile (fs : FS) (p : Path) : Option FileData :=
  fs.files.lookup p

def FS.isFile (fs : FS) (p : Path) : Bool :=
  (fs.lookupFile p).isSome

def FS.isDir (fs : FS) (p : Path) : Bool :=
  p.isEmpty || fs.dirs.contains p

/-- `os.path.exists`. -/
def FS.existsP (fs : FS) (p : Path) : Bool :=
  fs.isFile p || fs.isDir p

/-- Names of the regular files directly inside directory `d`. -/
def FS.fileNamesIn (fs : FS) (d : Path) : List String :=
  fs.files.filterMap (fun e => if e.1.dropLast = d then e.1.getLast? else none)

/-- Names of the directories directly inside directory `d`. -/
def FS.dirNamesIn (fs : FS) (d : Path) : List String :=
  fs.dirs.filterMap (fun q => if q.dropLast = d then q.getLast? else none)

/-- All entry names directly inside directory `d` (files, then dirs). -/
def FS.childNames (fs : FS) (d : Path) : List String :=
  fs.fileNamesIn d ++ fs.dirNamesIn d

/-- `os.listdir`. -/
def FS.listdir (fs : FS) (d : Path) : Except PyError (List String) :=
  if fs.isDir d then .ok (fs.childNames d)
  else if fs.isFile d then .error (.notADirectory d)
  else .error (.fileNotFound d)

/-- Reading a file's bytes (`open(p, "rb").read()`). -/
def FS.readFile (fs : FS) (p : Path) : Except PyError (List Nat) :=
  match fs.lookupFile p with
  | some fd => .ok fd.content
  | none => if fs.isDir p then .error (.isADirectory p) else .error (.fileNotFound p)

/-- `os.path.getsize` (a directory has some size; `0` here, never compared
against by the script except through the duplicate check, which then fails
on the subsequent read). -/
def FS.getsize (fs : FS) (p : Path) : Except PyError Nat :=
  match fs.lookupFile p with
  | some fd => .ok fd.content.length
  | none => if fs.isDir p then .ok 0 else .error (.fileNotFound p)

/-- `os.path.getmtime`; a `FileData.mtime` of `none` models an unreadable
modification time (stat failure). -/
def FS.getmtime (fs : FS) (p : Path) : Except PyError Int :=
  match fs.lookupFile p with
  | some fd =>
    match fd.mtime with
    | some t => .ok t
    | none => .error (.fileNotFound p)
  | none => if fs.isDir p then .ok 0 else .error (.fileNotFound p)

/-- Remove every entry for file path `p` from the file table. -/
def FS.eraseFile (fs : FS) (p : Path) : FS :=
  { fs with files := fs.files.filter (fun e => decide (e.1 ≠ p)) }

/-- `os.remove`. -/
def FS.remove (fs : FS) (p : Path) : Except PyError FS :=
  if fs.isFile p then .ok (fs.eraseFile p)
  else if fs.isDir p then .error (.isADirectory p)
  else .error (.fileNotFound p)

/-- Create or overwrite the file at `p`. -/
def FS.insertFile (fs : FS) (p : Path) (fd : FileData) : FS :=
  { fs with files := (p, fd) :: (fs.eraseFile p).files }

/-- Relocate the subtree rooted at `src` to `dst` (used when a directory is
renamed). -/
def Path.rebase (src dst p : Path) : Path :=
  if src.isPrefixOf p then dst ++ p.drop src.length else p

def FS.renameTree (fs : FS) (src dst : Path) : FS :=
  { files := fs.files.map (fun e => (Path.rebase src dst e.1, e.2)),
    dirs := fs.dirs.map (Path.rebase src dst) }

/-- `shutil.move fs src dst` for a `dst` full path: an atomic rename.  A
regular-file source overwrites a regular-file destination (POSIX rename)
and fails onto an existing directory; a directory source is renamed
wholesale onto a fresh destination. -/
def FS.move (fs : FS) (src dst : Path) : Except PyError FS :=
  match fs.lookupFile src with
  | some fd =>
    if fs.isDir dst then .error (.isADirectory dst)
    else if !fs.isDir dst.dropLast then .error (.fileNotFound dst.dropLast)
    else .ok ((fs.eraseFile src).insertFile dst fd)
  | none =>
    if fs.isDir src then
      if fs.existsP dst then .error (.fileExists dst)
      else if !fs.isDir dst.dropLast then .error (.fileNotFound dst.dropLast)
      else .ok (fs.renameTree src dst)
    else .error (.fileNotFound src)

/-- The non-empty prefixes of `p`, shortest first (`p` itself included). -/
def Path.ancestors (p : Path) : List Path :=
  (List.range p.length).map (fun i => p.take (i + 1))

/-- The directory table after a successful `os.makedirs p`: all missing
prefixes of `p` become directories. -/
def FS.mkdirsResult (fs : FS) (p : Path) : FS :=
  { fs with dirs := (Path.ancestors p).filter (fun q => !fs.isDir q) ++ fs.dirs }

/-- `os.makedirs` (default `exist_ok=False`): creates the target directory
and every missing ancestor; fails if the target already exists or if some
ancestor on the way is a regular file. -/
def FS.makedirs (fs : FS) (p : Path) : Except PyError FS :=
  if fs.existsP p then .error (.fileExists p)
  else if (Path.ancestors p).any (fun q => fs.isFile q) then .error (.notADirectory p)
  else .ok (fs.mkdirsResult p)

/-! ## String helpers

Python string primitives used by the script, embedded over `String.data`
so that every operation reduces by computation. -/

/-- Python `s.startswith(pre)`. -/
def strStartsWith (s pre : String) : Bool := pre.data.isPrefixOf s.data

/-- Python `s.endswith(suf)`. -/
def strEndsWith (s suf : String) : Bool := suf.data.isSuffixOf s.data

/-- Python `s.lower()` (ASCII case folding suffices for extensions). -/
def strToLower (s : String) : String := ⟨s.data.map Char.toLower⟩

/-- Python `filename.split('.')[-1] if '.' in filename else ''`:
the substring after the last dot, or `""` when there is no dot. -/
def lastExt (filename : String) : String :=
  if filename.data.contains '.' then
    ⟨(filename.data.reverse.takeWhile (fun c => !(c == '.'))).reverse⟩
  else ""

/-- `os.path.splitext` on a basename: split at the last dot, unless every
character before that dot is itself a dot (so `.bashrc` has no extension). -/
def splitext (s : String) : String × String :=
  let cs := s.data
  match cs.reverse.findIdx? (fun c => c == '.') with
  | none => (s, "")
  | some r =>
    let dotIndex := cs.length - 1 - r
    if (cs.take dotIndex).any (fun c => !(c == '.')) then
      (⟨cs.take dotIndex⟩, ⟨cs.drop dotIndex⟩)
    else (s, "")

/-- `os.path.basename` of a component path. -/
def lastName (p : Path) : String := (p.getLast?).getD ""

/-- Render a path for log messages. -/
def pathStr (p : Path) : String := String.intercalate "/" p

def errMsg : PyError → String
  | .fileNotFound p => "FileNotFoundError: " ++ pathStr p
  | .notADirectory p => "NotADirectoryError: " ++ pathStr p
  | .isADirectory p => "IsADirectoryError: " ++ pathStr p
  | .fileExists p => "FileExistsError: " ++ pathStr p

/-! ## The organizing pipeline (`get_category`, `calculate_hash`,
`is_duplicate`, `get_unique_filename`, `process_file`) -/

/-- `get_category(extension, config)` — first category (in definition
order) whose extension list contains the lower-cased extension; `"Others"`
when none does. -/
def get_category (extension : String) (config : List (String × List String)) : String :=
  match config with
  | [] => "Others"
  | (category, extensions) :: rest =>
    if extensions.contains (strToLower extension) then category
    else get_category extension rest

/-- `calculate_hash(filepath)` — SHA-256 of the file's bytes, with the
digest function abstract. -/
def calculate_hash (hash : List Nat → Nat) (fs : FS) (filepath : Path) :
    Except PyError Nat :=
  match fs.readFile filepath with
  | .ok bs => .ok (hash bs)
  | .error e => .error e

/-- `is_duplicate(source_path, dest_path)` — `False` if the destination
does not exist, then a size pre-filter, then digest comparison. -/
def is_duplicate (hash : List Nat → Nat) (fs : FS) (source_path dest_path : Path) :
    Except PyError Bool :=
  if !fs.existsP dest_path then .ok false
  else
    match fs.getsize source_path with
    | .error e => .error e
    | .ok s1 =>
      match fs.getsize dest_path with
      | .error e => .error e
      | .ok s2 =>
        if s1 ≠ s2 then .ok false
        else
          match calculate_hash hash fs source_path with
          | .error e => .error e
          | .ok h1 =>
            match calculate_hash hash fs dest_path with
            | .error e => .error e
            | .ok h2 => .ok (h1 == h2)

/-- The probed name `f"{name} ({counter}){ext}"`. -/
def probeName (stem ext : String) (n : Nat) : String :=
  stem ++ " (" ++ Nat.repr n ++ ")" ++ ext

/-- The `while os.path.exists(...)` loop of `get_unique_filename`, with
explicit fuel (the loop terminates because the probed names are pairwise
distinct and the directory holds finitely many entries; see
`get_unique_filename_terminates`). -/
def gufGo (fs : FS) (dest_folder : Path) (stem ext : String) :
    Nat → String → Nat → String
  | 0, cur, _ => cur
  | fuel + 1, cur, counter =>
    if fs.existsP (dest_folder ++ [cur]) then
      gufGo fs dest_folder stem ext fuel (probeName stem ext counter) (counter + 1)
    else cur

/-- `get_unique_filename(dest_folder, filename)`. -/
def get_unique_filename (fs : FS) (dest_folder : Path) (filename : String) : String :=
  let se := splitext filename
  gufGo fs dest_folder se.1 se.2 ((fs.childNames dest_folder).length + 2) filename 1

/-- The `for existing_file in os.listdir(dest_folder)` duplicate-scan loop:
skips non-files, removes the source and stops at the first content
duplicate.  Returns the state and the matched name (`none` = no duplicate);
an error carries the state at the failure point. -/
def dupLoop (hash : List Nat → Nat) (fs : FS) (filepath dest_folder : Path) :
    List String → Except (FS × PyError) (FS × Option String)
  | [] => .ok (fs, none)
  | existing_file :: rest =>
    let existing_filepath := dest_folder ++ [existing_file]
    if fs.isFile existing_filepath then
      match is_duplicate hash fs filepath existing_filepath with
      | .error e => .error (fs, e)
      | .ok true =>
        match fs.remove filepath with
        | .ok fs' => .ok (fs', some existing_file)
        | .error e => .error (fs, e)
      | .ok false => dupLoop hash fs filepath dest_folder rest
    else dupLoop hash fs filepath dest_folder rest

def dupLogMsg (filename existing : String) : String :=
  "Duplicate found: " ++ filename ++ " is same as " ++ existing ++ ". Deleting new file."

def movedLogMsg (filename category final : String) : String :=
  "Moved " ++ filename ++ " to " ++ category ++ "/" ++ final

def errorLogMsg (filepath : Path) (e : PyError) : String :=
  "Error processing " ++ pathStr filepath ++ ": " ++ errMsg e

/-- The body of `process_file`'s `try` block (source lines 87–130): the
re-existence check, classification, destination-folder creation, duplicate
scan, unique-name allocation and the move.  An error is the exception that
the enclosing `except` catches, carrying the state at the failure point. -/
def processFileTry (hash : List Nat → Nat) (config : List (String × List String))
    (fs : FS) (filepath file_dir : Path) (filename : String) :
    Except (FS × PyError) (FS × List String) :=
  if !fs.existsP filepath then .ok (fs, [])
  else
    let extension := lastExt filename
    let category := get_category extension config
    let dest_folder := file_dir ++ [category]
    let mk : Except (FS × PyError) FS :=
      if !fs.existsP dest_folder then
        match fs.makedirs dest_folder with
        | .ok fs' => .ok fs'
        | .error e => .error (fs, e)
      else .ok fs
    match mk with
    | .error e => .error e
    | .ok fsA =>
      match fsA.listdir dest_folder with
      | .error e => .error (fsA, e)
      | .ok entries =>
        match dupLoop hash fsA filepath dest_folder entries with
        | .error e => .error e
        | .ok (fsB, some existing) => .ok (fsB, [dupLogMsg filename existing])
        | .ok (fsB, none) =>
          let final_filename := get_unique_filename fsB dest_folder filename
          let final_dest_path := dest_folder ++ [final_filename]
          match fsB.move filepath final_dest_path with
          | .ok fsC => .ok (fsC, [movedLogMsg filename category final_filename])
          | .error e => .error (fsB, e)

/-- `process_file(filepath)` (source lines 71–133): the watched-root
filter, the hidden-file and in-progress-download filter, then the guarded
body; any exception from the body is caught, logged with the path and
reason, and the event dropped.  Returns the final state and the log lines
emitted. -/
def process_file (hash : List Nat → Nat) (config : List (String × List String))
    (targets : List Path) (fs : FS) (filepath : Path) : FS × List String :=
  let file_dir := filepath.dropLast
  if !targets.contains file_dir then (fs, [])
  else
    let filename := lastName filepath
    if strStartsWith filename "." || strEndsWith filename ".download" ||
        strEndsWith filename ".crdownload" || strEndsWith filename ".part" then
      (fs, [])
    else
      match processFileTry hash config fs filepath file_dir filename with
      | .ok r => r
      | .error (fsE, e) => (fsE, [errorLogMsg filepath e])

/-! ## The archival sweep (`run_archival`, source lines 187–245)

The sweep walks every non-hidden top-level subdirectory of each watched
root, and in every directory visited appends the stale files to that
directory's `archive.zip` and then deletes the originals.  The bundle's
entry list is modelled separately from its (opaque) bytes in an
association list `zips`; the bundle file itself appears in the file table
with empty content.  Whether the `zipfile` write for a given bundle path
succeeds is an environmental fact, modelled by the oracle
`zipOk : Path → Bool`; on failure nothing is appended and no original is
deleted (in the source the deletion loop runs strictly after the `with`
block closes the bundle, inside the same `try`). -/

/-- Sweep state: the filesystem, the entry lists of the `archive.zip`
bundles (keyed by bundle path), and the log. -/
structure ArchState where
  fs : FS
  zips : List (Path × List (String × List Nat))
  log : List String
deriving Repr, DecidableEq

def lookupZip (zs : List (Path × List (String × List Nat))) (p : Path) :
    List (String × List Nat) :=
  (zs.lookup p).getD []

def setZip (zs : List (Path × List (String × List Nat))) (p : Path)
    (v : List (String × List Nat)) : List (Path × List (String × List Nat)) :=
  (p, v) :: zs.filter (fun e => decide (e.1 ≠ p))

/-- The candidate-selection loop (source lines 205–220): the regular files
directly in `root` that are not the bundle itself, not hidden, and whose
readable modification time lies strictly more than `threshold_seconds`
before `now`; files whose mtime cannot be read are skipped. -/
def files_to_archive (fs : FS) (root : Path) (threshold_seconds now : Int) :
    List String :=
  (fs.fileNamesIn root).filter (fun filename =>
    if filename == "archive.zip" || strStartsWith filename "." then false
    else if fs.isFile (root ++ [filename]) then
      match fs.getmtime (root ++ [filename]) with
      | .ok t => decide (now - t > threshold_seconds)
      | .error _ => false
    else false)

/-- The `(filename, bytes)` entries appended for the selected files. -/
def zipEntriesFor (fs : FS) (root : Path) (names : List String) :
    List (String × List Nat) :=
  names.map (fun n => (n, ((fs.lookupFile (root ++ [n])).map FileData.content).getD []))

/-- One directory's archival step (source lines 222–241): if any files
qualify, append them all to `root/archive.zip` and delete the originals;
a bundle-write failure (oracle `false`) is caught, logged, and leaves the
directory's files and bundle untouched. -/
def archive_dir (zipOk : Path → Bool) (threshold now : Int)
    (st : ArchState) (root : Path) : ArchState :=
  let cands := files_to_archive st.fs root threshold now
  if cands.isEmpty then st
  else
    let archive_path := root ++ ["archive.zip"]
    if zipOk archive_path then
      let zips' := setZip st.zips archive_path
        (lookupZip st.zips archive_path ++ zipEntriesFor st.fs root cands)
      let fs1 := st.fs.insertFile archive_path ⟨[], some now⟩
      let fs2 := cands.foldl (fun acc n => acc.eraseFile (root ++ [n])) fs1
      { fs := fs2, zips := zips',
        log := st.log ++
          ["Archiving " ++ Nat.repr cands.length ++ " files in " ++ pathStr root] ++
          cands.map (fun n => "Archived " ++ n) ++
          cands.map (fun n => "Deleted original " ++ n) }
    else
      { st with log := st.log ++ ["Failed to archive in " ++ pathStr root] }

/-- The paths of the subdirectories of `root`, given the directory table. -/
def dirChildren (dirs : List Path) (root : Path) : List Path :=
  (dirs.filterMap (fun q => if q.dropLast = root then q.getLast? else none)).map
    (fun n => root ++ [n])

/-- `os.walk` in depth-first preorder over a worklist, applying
`archive_dir` at each directory visited.  The fuel bounds the number of
directories visited; the sweep never creates or removes directories, so a
fuel of twice the directory-table size covers every reachable directory. -/
def walk_archive (zipOk : Path → Bool) (threshold now : Int) :
    Nat → ArchState → List Path → ArchState
  | 0, st, _ => st
  | _, st, [] => st
  | fuel + 1, st, root :: rest =>
    let st1 := archive_dir zipOk threshold now st root
    walk_archive zipOk threshold now fuel st1 (dirChildren st1.fs.dirs root ++ rest)

def walkFuel (dirs : List Path) : Nat := (dirs.length + 1) * 2

/-- The non-hidden top-level subdirectories of a watched root — the
category folders the sweep starts from (source lines 196–200). -/
def topItems (dirs : List Path) (target_dir : Path) : List Path :=
  ((dirs.filterMap (fun q => if q.dropLast = target_dir then q.getLast? else none)).filter
    (fun n => !strStartsWith n ".")).map (fun n => target_dir ++ [n])

/-- One full archival sweep (`run_archival`): `threshold = days * 86400`
seconds, `now` the sweep's start time; every watched root's category
folders are walked in turn. -/
def run_archival (zipOk : Path → Bool) (days : Nat) (now : Int)
    (targets : List Path) (st : ArchState) : ArchState :=
  let threshold : Int := (days : Int) * 86400
  targets.foldl (fun acc target_dir =>
    walk_archive zipOk threshold now (walkFuel acc.fs.dirs) acc
      (topItems acc.fs.dirs target_dir)) st

/-! ## Proof-side definitions -/

/-- The destination category folder `process_file` computes for a path
(source lines 96–101): `<parent>/<category>`. -/
def destFolderOf (config : List (String × List String)) (filepath : Path) : Path :=
  filepath.dropLast ++ [get_category (lastExt (lastName filepath)) config]

/-- The final name the allocator picks for a path being placed. -/
def allocatedName (config : List (String × List String)) (fs : FS) (filepath : Path) :
    String :=
  get_unique_filename fs (destFolderOf config filepath) (lastName filepath)

/-- The sequence of candidate names examined by `get_unique_filename`'s
loop: the current name first, then the probes from `counter` on. -/
def gufCand (cur stem ext : String) (counter : Nat) : Nat → String
  | 0 => cur
  | j + 1 => probeName stem ext (counter + j)

/-- A file name the sweep would select in `root`: a regular file, not the
bundle, not hidden, with a readable modification time strictly older than
the threshold. -/
def EligibleName (fs : FS) (root : Path) (threshold now : Int) (n : String) : Prop :=
  fs.isFile (root ++ [n]) = true ∧ n ≠ "archive.zip" ∧
    strStartsWith n "." = false ∧
    ∃ t, fs.getmtime (root ++ [n]) = .ok t ∧ now - t > threshold

/-- No file in `root` is currently selectable by the sweep. -/
def NoStale (fs : FS) (threshold now : Int) (root : Path) : Prop :=
  files_to_archive fs root threshold now = []

/-- The directories `walk_archive` visits, in order; depends only on the
directory table, which the sweep never modifies. -/
def visitSeq (dirs : List Path) : Nat → List Path → List Path
  | 0, _ => []
  | _, [] => []
  | fuel + 1, root :: rest => root :: visitSeq dirs fuel (dirChildren dirs root ++ rest)

/-- The directories one full sweep visits, in order. -/
def runVisits (dirs : List Path) : List Path → List Path
  | [] => []
  | t :: ts => visitSeq dirs (walkFuel dirs) (topItems dirs t) ++ runVisits dirs ts

/-! ### Concrete fixtures used by the witness theorems -/

/-- A hash usable as the abstract digest in concrete examples. -/
def hashLen : List Nat → Nat := fun l => l.length

/-- A downloads root holding one fresh pdf. -/
def fsMove : FS :=
  { files := [(["dl", "a.pdf"], ⟨[1, 2], some 0⟩)], dirs := [["dl"]] }

/-- A root whose `Docs` folder already holds a same-content file under a
different name. -/
def fsDup : FS :=
  { files := [(["dl", "a.pdf"], ⟨[1, 2], some 0⟩),
              (["dl", "Docs", "z.pdf"], ⟨[1, 2], some 9⟩)],
    dirs := [["dl"], ["dl", "Docs"]] }

/-- A root where the destination category name is taken by a regular file,
so the body of `process_file` raises. -/
def fsErr : FS :=
  { files := [(["dl", "a.pdf"], ⟨[1, 2], some 0⟩), (["dl", "Docs"], ⟨[], some 0⟩)],
    dirs := [["dl"]] }

/-- A folder already holding a (different-content) `report.pdf`. -/
def fsColl : FS :=
  { files := [(["d", "report.pdf"], ⟨[1], some 0⟩)], dirs := [["d"]] }

/-- A sweep state with one stale file in a category folder. -/
def stArch : ArchState :=
  { fs := { files := [(["dl", "Docs", "old.pdf"], ⟨[7], some 0⟩),
                      (["dl", "Docs", "new.pdf"], ⟨[8], some 999999⟩)],
            dirs := [["dl"], ["dl", "Docs"]] },
    zips := [], log := [] }

/-! ## Association-list and path lemmas -/

theorem lookup_filter_not_key {α β : Type} [BEq α] [LawfulBEq α] [DecidableEq α]
    (l : List (α × β)) (p : α) :
    (l.filter (fun e => decide (e.1 ≠ p))).lookup p = none := by
  induction l with
  | nil => rfl
  | cons e es ih =>
    by_cases h : e.1 = p
    · have hd : (decide (e.1 ≠ p)) = false := by simp [h]
      simp only [List.filter_cons, hd, Bool.false_eq_true, if_false]
      exact ih
    · have hd : (decide (e.1 ≠ p)) = true := by simp [h]
      simp only [List.filter_cons, hd, if_true]
      have hb : (p == e.1) = false := beq_eq_false_iff_ne.mpr (fun hh => h hh.symm)
      simp only [List.lookup, hb]
      exact ih

theorem lookup_filter_ne_key {α β : Type} [BEq α] [LawfulBEq α] [DecidableEq α]
    (l : List (α × β)) (p q : α) (h : q ≠ p) :
    (l.filter (fun e => decide (e.1 ≠ p))).lookup q = l.lookup q := by
  induction l with
  | nil => rfl
  | cons e es ih =>
    by_cases he : e.1 = p
    · have hd : (decide (e.1 ≠ p)) = false := by simp [he]
      have hq : (q == e.1) = false := beq_eq_false_iff_ne.mpr (fun hh => h (hh ▸ he))
      simp only [List.filter_cons, hd, Bool.false_eq_true, if_false, List.lookup, hq]
      exact ih
    · have hd : (decide (e.1 ≠ p)) = true := by simp [he]
      simp only [List.filter_cons, hd, if_true, List.lookup]
      cases hqe : (q == e.1) with
      | true => rfl
      | false => exact ih

theorem lookup_isSome_iff {α β : Type} [BEq α] [LawfulBEq α] (l : List (α × β)) (a : α) :
    (l.lookup a).isSome = true ↔ ∃ b, (a, b) ∈ l := by
  induction l with
  | nil => simp [List.lookup]
  | cons e es ih =>
    simp only [List.lookup]
    cases hae : (a == e.1) with
    | true =>
      have : a = e.1 := by simpa using hae
      subst this
      simp only [hae, Option.isSome_some, List.mem_cons, true_iff]
      exact ⟨e.2, Or.inl Prod.mk.eta.symm⟩
    | false =>
      have hne : a ≠ e.1 := by simpa using hae
      simp only [Option.isSome, List.mem_cons]
      constructor
      · intro hs
        obtain ⟨b, hb⟩ := ih.mp hs
        exact ⟨b, Or.inr hb⟩
      · rintro ⟨b, hb | hb⟩
        · exact absurd (congrArg Prod.fst hb) hne
        · exact ih.mpr ⟨b, hb⟩

theorem lookup_eq_some_mem {α β : Type} [BEq α] [LawfulBEq α] {l : List (α × β)} {a : α} {b : β}
    (h : l.lookup a = some b) : (a, b) ∈ l := by
  induction l with
  | nil => simp [List.lookup] at h
  | cons e es ih =>
    simp only [List.lookup] at h
    cases hae : (a == e.1) with
    | true =>
      rw [hae] at h
      have h1 : a = e.1 := by simpa using hae
      have h2 : b = e.2 := by simpa using h.symm
      simp [h1, h2]
    | false =>
      rw [hae] at h
      exact List.mem_cons_of_mem _ (ih h)

theorem path_concat_dropLast (d : Path) (n : String) : (d ++ [n]).dropLast = d := by
  simp

theorem path_concat_getLast? (d : Path) (n : String) : (d ++ [n]).getLast? = some n := by
  simp

theorem path_eq_concat {p d : Path} {n : String}
    (h1 : p.dropLast = d) (h2 : p.getLast? = some n) : p = d ++ [n] := by
  have hne : p ≠ [] := by
    intro h
    subst h
    simp at h2
  have := List.dropLast_append_getLast hne
  rw [List.getLast?_eq_getLast p hne] at h2
  rw [← this, h1, Option.some_inj.mp h2]

/-! ## Effects of the filesystem primitives -/

theorem lookupFile_erase_self (fs : FS) (p : Path) :
    (fs.eraseFile p).lookupFile p = none := by
  simp only [FS.eraseFile, FS.lookupFile]
  exact lookup_filter_not_key fs.files p

theorem lookupFile_erase_ne (fs : FS) {p q : Path} (h : q ≠ p) :
    (fs.eraseFile p).lookupFile q = fs.lookupFile q := by
  simp only [FS.eraseFile, FS.lookupFile]
  exact lookup_filter_ne_key fs.files p q h

theorem dirs_erase (fs : FS) (p : Path) : (fs.eraseFile p).dirs = fs.dirs := rfl

theorem lookupFile_insert_self (fs : FS) (p : Path) (fd : FileData) :
    (fs.insertFile p fd).lookupFile p = some fd := by
  simp [FS.insertFile, FS.lookupFile, List.lookup]

theorem lookupFile_insert_ne (fs : FS) {p q : Path} (fd : FileData) (h : q ≠ p) :
    (fs.insertFile p fd).lookupFile q = fs.lookupFile q := by
  have hb : (q == p) = false := beq_eq_false_iff_ne.mpr h
  simp only [FS.insertFile, FS.lookupFile, List.lookup, hb]
  exact lookup_filter_ne_key fs.files p q h

theorem dirs_insert (fs : FS) (p : Path) (fd : FileData) :
    (fs.insertFile p fd).dirs = fs.dirs := rfl

theorem isFile_iff_exists_mem (fs : FS) (p : Path) :
    fs.isFile p = true ↔ ∃ fd, (p, fd) ∈ fs.files := by
  simp only [FS.isFile, FS.lookupFile]
  exact lookup_isSome_iff fs.files p

theorem mem_fileNamesIn_iff (fs : FS) (d : Path) (n : String) :
    n ∈ fs.fileNamesIn d ↔ fs.isFile (d ++ [n]) = true := by
  rw [isFile_iff_exists_mem]
  simp only [FS.fileNamesIn, List.mem_filterMap]
  constructor
  · rintro ⟨e, hm, hf⟩
    by_cases hd : e.1.dropLast = d
    · rw [if_pos hd] at hf
      have : e.1 = d ++ [n] := path_eq_concat hd hf
      exact ⟨e.2, by rw [← this]; exact (Prod.mk.eta ▸ hm)⟩
    · rw [if_neg hd] at hf
      exact absurd hf (by simp)
  · rintro ⟨fd, hm⟩
    exact ⟨(d ++ [n], fd), hm, by simp⟩

theorem mem_dirNamesIn_iff (fs : FS) (d : Path) (n : String) :
    n ∈ fs.dirNamesIn d ↔ (d ++ [n]) ∈ fs.dirs := by
  simp only [FS.dirNamesIn, List.mem_filterMap]
  constructor
  · rintro ⟨q, hm, hf⟩
    by_cases hd : q.dropLast = d
    · rw [if_pos hd] at hf
      exact (path_eq_concat hd hf) ▸ hm
    · rw [if_neg hd] at hf
      exact absurd hf (by simp)
  · intro hm
    exact ⟨d ++ [n], hm, by simp⟩

theorem isDir_concat_iff (fs : FS) (d : Path) (n : String) :
    fs.isDir (d ++ [n]) = true ↔ (d ++ [n]) ∈ fs.dirs := by
  simp only [FS.isDir, Bool.or_eq_true, List.isEmpty_iff]
  constructor
  · rintro (h | h)
    · exact absurd h (by simp)
    · exact List.elem_iff.mp h
  · intro h
    exact Or.inr (List.elem_iff.mpr h)

theorem existsP_concat_iff (fs : FS) (d : Path) (n : String) :
    fs.existsP (d ++ [n]) = true ↔ n ∈ fs.childNames d := by
  simp only [FS.existsP, FS.childNames, Bool.or_eq_true, List.mem_append]
  rw [← mem_fileNamesIn_iff, isDir_concat_iff, ← mem_dirNamesIn_iff]

theorem existsP_eq_false_parts {fs : FS} {p : Path} (h : fs.existsP p = false) :
    fs.isFile p = false ∧ fs.isDir p = false := by
  simpa [FS.existsP] using h

theorem isDir_of_existsP_not_file {fs : FS} {p : Path}
    (he : fs.existsP p = true) (hf : fs.isFile p = false) : fs.isDir p = true := by
  rcases Bool.or_eq_true_iff.mp (by simpa [FS.existsP] using he) with h | h
  · exact absurd h (by simp [hf])
  · exact h

theorem filterMap_filter_of_none {α γ : Type} (f : α → Option γ) (g : α → Bool)
    (l : List α) (h : ∀ e ∈ l, g e = false → f e = none) :
    (l.filter g).filterMap f = l.filterMap f := by
  induction l with
  | nil => rfl
  | cons e es ih =>
    have ih' := ih (fun x hx => h x (List.mem_cons_of_mem _ hx))
    cases hg : g e with
    | true => simp only [List.filter_cons, hg, if_true, List.filterMap_cons, ih']
    | false =>
      simp only [List.filter_cons, hg, Bool.false_eq_true, if_false, List.filterMap_cons,
        h e (List.mem_cons_self e es) hg, ih']

theorem fileNamesIn_erase_ne_parent (fs : FS) {p : Path} (d : Path)
    (h : p.dropLast ≠ d) : (fs.eraseFile p).fileNamesIn d = fs.fileNamesIn d := by
  simp only [FS.eraseFile, FS.fileNamesIn]
  apply filterMap_filter_of_none
  intro e _ hg
  have : e.1 = p := by simpa using hg
  rw [this, if_neg h]

theorem dirNamesIn_erase (fs : FS) (p d : Path) :
    (fs.eraseFile p).dirNamesIn d = fs.dirNamesIn d := rfl

theorem childNames_erase_ne_parent (fs : FS) {p : Path} (d : Path)
    (h : p.dropLast ≠ d) : (fs.eraseFile p).childNames d = fs.childNames d := by
  simp only [FS.childNames, fileNamesIn_erase_ne_parent fs d h, dirNamesIn_erase]

/-! ### `makedirs` effects -/

theorem mem_ancestors_length {p q : Path} (h : q ∈ Path.ancestors p) :
    q.length ≤ p.length := by
  simp only [Path.ancestors, List.mem_map, List.mem_range] at h
  obtain ⟨i, _, rfl⟩ := h
  simp [List.length_take]

theorem self_mem_ancestors {p : Path} (h : p ≠ []) : p ∈ Path.ancestors p := by
  simp only [Path.ancestors, List.mem_map, List.mem_range]
  refine ⟨p.length - 1, ?_, ?_⟩
  · have : 0 < p.length := List.length_pos.mpr h
    omega
  · have : 0 < p.length := List.length_pos.mpr h
    have heq : p.length - 1 + 1 = p.length := by omega
    rw [heq, List.take_length]

theorem mkdirsResult_files (fs : FS) (p : Path) :
    (fs.mkdirsResult p).files = fs.files := rfl

theorem mkdirsResult_isDir_self (fs : FS) {p : Path} (hne : fs.existsP p = false) :
    (fs.mkdirsResult p).isDir p = true := by
  obtain ⟨hf, hd⟩ := existsP_eq_false_parts hne
  have hpe : p ≠ [] := by
    intro h
    subst h
    simp [FS.isDir] at hd
  simp only [FS.mkdirsResult, FS.isDir, Bool.or_eq_true, List.isEmpty_iff]
  refine Or.inr (List.elem_iff.mpr ?_)
  refine List.mem_append_left _ (List.mem_filter.mpr ⟨self_mem_ancestors hpe, ?_⟩)
  show (!fs.isDir p) = true
  rw [hd]
  rfl

theorem mkdirsResult_mem_dirs_long (fs : FS) {p q : Path} (h : p.length < q.length) :
    (q ∈ (fs.mkdirsResult p).dirs ↔ q ∈ fs.dirs) := by
  simp only [FS.mkdirsResult, List.mem_append]
  constructor
  · rintro (hm | hm)
    · have := mem_ancestors_length (List.mem_of_mem_filter hm)
      omega
    · exact hm
  · exact Or.inr

theorem mkdirsResult_existsP_concat (fs : FS) (p : Path) (n : String) :
    (fs.mkdirsResult p).existsP (p ++ [n]) = fs.existsP (p ++ [n]) := by
  have hlen : p.length < (p ++ [n]).length := by simp
  have hfile : (fs.mkdirsResult p).isFile (p ++ [n]) = fs.isFile (p ++ [n]) := rfl
  cases he : fs.existsP (p ++ [n]) with
  | true =>
    rw [existsP_concat_iff] at he ⊢
    simp only [FS.childNames, List.mem_append, mem_fileNamesIn_iff, mem_dirNamesIn_iff] at he ⊢
    rcases he with h | h
    · exact Or.inl h
    · exact Or.inr ((mkdirsResult_mem_dirs_long fs hlen).mpr h)
  | false =>
    obtain ⟨hf, hd⟩ := existsP_eq_false_parts he
    have hd' : (fs.mkdirsResult p).isDir (p ++ [n]) = false := by
      cases hdd : (fs.mkdirsResult p).isDir (p ++ [n]) with
      | false => rfl
      | true =>
        rw [isDir_concat_iff] at hdd
        rw [mkdirsResult_mem_dirs_long fs hlen] at hdd
        rw [← isDir_concat_iff fs p n] at hdd
        rw [hdd] at hd
        exact hd
    simp [FS.existsP, hfile, hf, hd']

theorem mkdirsResult_childNames_self (fs : FS) (p : Path) :
    (fs.mkdirsResult p).childNames p = fs.childNames p := by
  have hfn : (fs.mkdirsResult p).fileNamesIn p = fs.fileNamesIn p := rfl
  have hdn : (fs.mkdirsResult p).dirNamesIn p = fs.dirNamesIn p := by
    simp only [FS.mkdirsResult, FS.dirNamesIn, List.filterMap_append]
    have : ((Path.ancestors p).filter (fun q => !fs.isDir q)).filterMap
        (fun q => if q.dropLast = p then q.getLast? else none) = [] := by
      rw [List.filterMap_eq_nil_iff]
      intro q hq
      have hlen := mem_ancestors_length (List.mem_of_mem_filter hq)
      have : q.dropLast ≠ p := by
        intro h
        have : q.dropLast.length < q.length ∨ q = [] := by
          cases q with
          | nil => exact Or.inr rfl
          | cons a as => simp [List.length_dropLast]
        rcases this with hlt | rfl
        · rw [h] at hlt
          omega
        · simp at h
          subst h
          simp [Path.ancestors] at hq
      rw [if_neg this]
    rw [this, List.nil_append]
  simp only [FS.childNames, hfn, hdn]

theorem makedirs_ok (fs : FS) {p : Path} (hne : fs.existsP p = false)
    (hanc : ∀ q ∈ Path.ancestors p, fs.isFile q = false) :
    fs.makedirs p = .ok (fs.mkdirsResult p) := by
  have hany : (Path.ancestors p).any (fun q => fs.isFile q) = false := by
    rw [List.any_eq_false]
    intro q hq
    simp [hanc q hq]
  simp [FS.makedirs, hne, hany]

/-! ## Injectivity of the decimal rendering, hence of the probed names -/

theorem digitChar_val : ∀ d : Nat, d < 10 → (Nat.digitChar d).toNat - 48 = d := by decide

theorem toDigitsCore_val (fuel : Nat) : ∀ (n : Nat) (acc : List Char), n < 10 ^ fuel →
    (Nat.toDigitsCore 10 fuel n acc).foldl (fun a c => a * 10 + (c.toNat - 48)) 0 =
      acc.foldl (fun a c => a * 10 + (c.toNat - 48)) n := by
  induction fuel with
  | zero =>
    intro n acc h
    have hn : n = 0 := by
      simp only [pow_zero] at h
      omega
    subst hn
    rfl
  | succ fuel ih =>
    intro n acc h
    have hmod : n % 10 < 10 := Nat.mod_lt n (by norm_num)
    by_cases h10 : n / 10 = 0
    · have hsmall : n < 10 := by
        rcases Nat.div_eq_zero_iff (by norm_num : 0 < 10) |>.mp h10 with h'
        exact h'
      simp only [Nat.toDigitsCore, h10, if_true, List.foldl]
      rw [Nat.zero_mul, Nat.zero_add, digitChar_val _ hmod, Nat.mod_eq_of_lt hsmall]
    · have hlt : n / 10 < 10 ^ fuel := by
        rw [Nat.div_lt_iff_lt_mul (by norm_num : 0 < 10)]
        calc n < 10 ^ (fuel + 1) := h
        _ = 10 ^ fuel * 10 := by rw [pow_succ]
      simp only [Nat.toDigitsCore, h10, if_false]
      rw [ih (n / 10) _ hlt]
      simp only [List.foldl]
      rw [digitChar_val _ hmod]
      congr 1
      omega

theorem toDigits_val (n : Nat) :
    (Nat.toDigits 10 n).foldl (fun a c => a * 10 + (c.toNat - 48)) 0 = n := by
  have h : n < 10 ^ (n + 1) := by
    calc n < 10 ^ n := Nat.lt_pow_self (by norm_num) n
    _ ≤ 10 ^ (n + 1) := Nat.pow_le_pow_right (by norm_num) (Nat.le_succ n)
  unfold Nat.toDigits
  rw [toDigitsCore_val (n + 1) n [] h]
  rfl

theorem string_data_inj {s t : String} (h : s.data = t.data) : s = t := by
  cases s
  cases t
  simp only at h
  rw [h]

theorem nat_repr_inj {a b : Nat} (h : Nat.repr a = Nat.repr b) : a = b := by
  have h2 : Nat.toDigits 10 a = Nat.toDigits 10 b := congrArg String.data h
  rw [← toDigits_val a, ← toDigits_val b, h2]

theorem probeName_inj (stem ext : String) {a b : Nat}
    (h : probeName stem ext a = probeName stem ext b) : a = b := by
  unfold probeName at h
  have hd := congrArg String.data h
  simp only [String.data_append, List.append_assoc] at hd
  have h1 := List.append_cancel_left hd
  have h2 := List.append_cancel_left h1
  rw [← List.append_assoc, ← List.append_assoc] at h2
  have h3 := List.append_cancel_right h2
  have h4 := List.append_cancel_right h3
  exact nat_repr_inj (string_data_inj h4)

/-! ## The `get_unique_filename` probe loop -/

theorem gufCand_shift (cur stem ext : String) (counter j : Nat) :
    gufCand (probeName stem ext counter) stem ext (counter + 1) j =
      gufCand cur stem ext counter (j + 1) := by
  cases j with
  | zero => rfl
  | succ i =>
    simp only [gufCand]
    congr 1
    omega

theorem gufGo_spec (fs : FS) (dest : Path) (stem ext : String) :
    ∀ (fuel : Nat) (cur : String) (counter : Nat),
    (∃ j, j < fuel ∧ fs.existsP (dest ++ [gufCand cur stem ext counter j]) = false) →
    ∃ j, j < fuel ∧ gufGo fs dest stem ext fuel cur counter = gufCand cur stem ext counter j ∧
      fs.existsP (dest ++ [gufCand cur stem ext counter j]) = false ∧
      ∀ i, i < j → fs.existsP (dest ++ [gufCand cur stem ext counter i]) = true := by
  intro fuel
  induction fuel with
  | zero =>
    rintro cur counter ⟨j, hj, _⟩
    omega
  | succ fuel ih =>
    rintro cur counter ⟨j0, hj0, hfree⟩
    cases hP : fs.existsP (dest ++ [cur]) with
    | false =>
      refine ⟨0, by omega, ?_, hP, ?_⟩
      · simp only [gufGo, hP, Bool.false_eq_true, if_false]
        rfl
      · intro i hi
        omega
    | true =>
      have hj0' : j0 ≠ 0 := by
        intro h
        subst h
        simp only [gufCand] at hfree
        rw [hP] at hfree
        exact absurd hfree (by simp)
      obtain ⟨j1, rfl⟩ : ∃ j1, j0 = j1 + 1 := ⟨j0 - 1, by omega⟩
      have hx : ∃ j, j < fuel ∧
          fs.existsP (dest ++ [gufCand (probeName stem ext counter) stem ext (counter + 1) j]) = false := by
        refine ⟨j1, by omega, ?_⟩
        rw [gufCand_shift cur]
        exact hfree
      obtain ⟨j, hj, heq, hfr, hmin⟩ := ih (probeName stem ext counter) (counter + 1) hx
      refine ⟨j + 1, by omega, ?_, ?_, ?_⟩
      · simp only [gufGo, hP, if_true]
        rw [heq, gufCand_shift cur]
      · rw [← gufCand_shift cur]
        exact hfr
      · intro i hi
        cases i with
        | zero => exact hP
        | succ i' =>
          rw [← gufCand_shift cur]
          exact hmin i' (by omega)

theorem gufGo_stable (fs : FS) (dest : Path) (stem ext : String) :
    ∀ (fuel : Nat) (cur : String) (counter : Nat),
    (∃ j, j < fuel ∧ fs.existsP (dest ++ [gufCand cur stem ext counter j]) = false) →
    ∀ extra, gufGo fs dest stem ext (fuel + extra) cur counter =
      gufGo fs dest stem ext fuel cur counter := by
  intro fuel
  induction fuel with
  | zero =>
    rintro cur counter ⟨j, hj, _⟩
    omega
  | succ fuel ih =>
    rintro cur counter ⟨j0, hj0, hfree⟩ extra
    have harith : fuel + 1 + extra = (fuel + extra) + 1 := by omega
    cases hP : fs.existsP (dest ++ [cur]) with
    | false =>
      rw [harith]
      simp only [gufGo, hP, Bool.false_eq_true, if_false]
    | true =>
      have hj0' : j0 ≠ 0 := by
        intro h
        subst h
        simp only [gufCand] at hfree
        rw [hP] at hfree
        exact absurd hfree (by simp)
      obtain ⟨j1, rfl⟩ : ∃ j1, j0 = j1 + 1 := ⟨j0 - 1, by omega⟩
      have hx : ∃ j, j < fuel ∧
          fs.existsP (dest ++ [gufCand (probeName stem ext counter) stem ext (counter + 1) j]) = false := by
        refine ⟨j1, by omega, ?_⟩
        rw [gufCand_shift cur]
        exact hfree
      rw [harith]
      simp only [gufGo, hP, if_true]
      exact ih (probeName stem ext counter) (counter + 1) hx extra

theorem exists_free_probe (fs : FS) (dest : Path) (stem ext filename : String) :
    ∃ j, j < (fs.childNames dest).length + 2 ∧
      fs.existsP (dest ++ [gufCand filename stem ext 1 j]) = false := by
  by_contra hcon
  push_neg at hcon
  have hall : ∀ j, j < (fs.childNames dest).length + 2 →
      fs.existsP (dest ++ [gufCand filename stem ext 1 j]) = true := by
    intro j hj
    have := hcon j hj
    cases hb : fs.existsP (dest ++ [gufCand filename stem ext 1 j]) with
    | false => exact absurd hb this
    | true => rfl
  have hmem : ∀ k, k < (fs.childNames dest).length + 1 →
      probeName stem ext (k + 1) ∈ fs.childNames dest := by
    intro k hk
    have h1 := hall (k + 1) (by omega)
    have h2 : gufCand filename stem ext 1 (k + 1) = probeName stem ext (k + 1) := by
      simp only [gufCand]
      congr 1
      omega
    rw [h2] at h1
    exact (existsP_concat_iff fs dest _).mp h1
  have hinj : Function.Injective (fun k : Nat => probeName stem ext (k + 1)) := by
    intro a b h
    have := probeName_inj stem ext h
    omega
  have hnd : ((List.range ((fs.childNames dest).length + 1)).map
      (fun k => probeName stem ext (k + 1))).Nodup :=
    (List.nodup_range _).map hinj
  have hsub : ((List.range ((fs.childNames dest).length + 1)).map
      (fun k => probeName stem ext (k + 1))).toFinset ⊆ (fs.childNames dest).toFinset := by
    intro x hx
    rw [List.mem_toFinset] at hx ⊢
    obtain ⟨k, hk, rfl⟩ := List.mem_map.mp hx
    exact hmem k (List.mem_range.mp hk)
  have h1 : ((List.range ((fs.childNames dest).length + 1)).map
      (fun k => probeName stem ext (k + 1))).toFinset.card = (fs.childNames dest).length + 1 := by
    rw [List.toFinset_card_of_nodup hnd]
    simp
  have h2 := Finset.card_le_card hsub
  have h3 := (fs.childNames dest).toFinset_card_le
  omega

theorem guf_result_free (fs : FS) (dest : Path) (filename : String) :
    fs.existsP (dest ++ [get_unique_filename fs dest filename]) = false := by
  obtain ⟨j, hj, heq, hfree, _⟩ :=
    gufGo_spec fs dest (splitext filename).1 (splitext filename).2
      ((fs.childNames dest).length + 2) filename 1
      (exists_free_probe fs dest (splitext filename).1 (splitext filename).2 filename)
  show fs.existsP (dest ++ [gufGo fs dest (splitext filename).1 (splitext filename).2
    ((fs.childNames dest).length + 2) filename 1]) = false
  rw [heq]
  exact hfree

theorem gufCand_one_eq_probe (filename stem ext : String) {m : Nat} (hm : 1 ≤ m) :
    gufCand filename stem ext 1 m = probeName stem ext m := by
  obtain ⟨i, rfl⟩ : ∃ i, m = i + 1 := ⟨m - 1, by omega⟩
  simp only [gufCand]
  congr 1
  omega

/-! ## Claim theorems: classifier and name allocator -/

theorem contains_eq_any_toLower (x : String) (l : List String)
    (hl : ∀ e ∈ l, strToLower e = e) :
    l.contains x = l.any (fun e => x == strToLower e) := by
  induction l with
  | nil => rfl
  | cons e es ih =>
    have he := hl e (List.mem_cons_self _ _)
    rw [List.contains_cons, List.any_cons, he,
      ih (fun y hy => hl y (List.mem_cons_of_mem _ hy))]

/-- **C4.** The classifier is a total, deterministic function: for every
extension and category map whose extension sets are lower-cased (the
`CategoryMap` invariant), classification returns exactly the first
category in definition order whose set contains the extension compared
case-insensitively, and `"Others"` when no set contains it. -/
theorem get_category_first_match (extension : String)
    (config : List (String × List String))
    (hlc : ∀ pr ∈ config, ∀ e ∈ pr.2, strToLower e = e) :
    get_category extension config =
      match config.find?
          (fun pr => pr.2.any (fun e => strToLower extension == strToLower e)) with
      | some pr => pr.1
      | none => "Others" := by
  induction config with
  | nil => rfl
  | cons pr rest ih =>
    obtain ⟨cat, exts⟩ := pr
    have hexts : ∀ e ∈ exts, strToLower e = e :=
      fun e he => hlc (cat, exts) (List.mem_cons_self _ _) e he
    have hhead : exts.contains (strToLower extension) =
        exts.any (fun e => strToLower extension == strToLower e) :=
      contains_eq_any_toLower (strToLower extension) exts hexts
    have ih' := ih (fun q hq => hlc q (List.mem_cons_of_mem _ hq))
    cases hc : exts.contains (strToLower extension) with
    | true =>
      have hc' : (exts.any (fun e => strToLower extension == strToLower e)) = true := by
        rw [← hhead]; exact hc
      have hfind := List.find?_cons_of_pos (p := fun pr : String × List String =>
        pr.2.any (fun e => strToLower extension == strToLower e)) (a := (cat, exts)) rest hc'
      rw [hfind]
      simp only [get_category, hc, if_true]
    | false =>
      have hc' : (exts.any (fun e => strToLower extension == strToLower e)) = false := by
        rw [← hhead]; exact hc
      have hfind := List.find?_cons_of_neg (p := fun pr : String × List String =>
        pr.2.any (fun e => strToLower extension == strToLower e)) (a := (cat, exts)) rest
        (by simp [hc'])
      rw [hfind]
      simp only [get_category, hc, Bool.false_eq_true, if_false]
      exact ih'

/-- Witness for C4: `"PDF"` lands in `Documents` under a lower-cased map. -/
theorem get_category_first_match_witness :
    get_category "PDF" [("Documents", ["pdf", "docx"]), ("Images", ["jpg"])] = "Documents" := by
  rw [get_category_first_match "PDF" [("Documents", ["pdf", "docx"]), ("Images", ["jpg"])]
    (by decide)]
  decide

/-- **C5.** The name allocator returns the desired name unchanged when no
entry with that name exists in the folder; otherwise it returns
`"{stem} ({n}){ext}"` for the smallest `n ≥ 1` whose probe is not present
(`n` is characterized by its probe being free while every earlier probe
from 1 on is taken). -/
theorem get_unique_filename_smallest (fs : FS) (dest : Path) (filename : String)
    (n : Nat) (hn : 1 ≤ n)
    (hfree : fs.existsP
      (dest ++ [probeName (splitext filename).1 (splitext filename).2 n]) = false)
    (hbusy : ∀ m, 1 ≤ m → m < n →
      fs.existsP
        (dest ++ [probeName (splitext filename).1 (splitext filename).2 m]) = true) :
    get_unique_filename fs dest filename =
      if fs.existsP (dest ++ [filename]) then
        probeName (splitext filename).1 (splitext filename).2 n
      else filename := by
  obtain ⟨j, hjlt, heq, hjfree, hjmin⟩ :=
    gufGo_spec fs dest (splitext filename).1 (splitext filename).2
      ((fs.childNames dest).length + 2) filename 1
      (exists_free_probe fs dest (splitext filename).1 (splitext filename).2 filename)
  have hguf : get_unique_filename fs dest filename =
      gufGo fs dest (splitext filename).1 (splitext filename).2
        ((fs.childNames dest).length + 2) filename 1 := rfl
  cases hP : fs.existsP (dest ++ [filename]) with
  | false =>
    simp only [hP, Bool.false_eq_true, if_false]
    rw [hguf]
    simp only [gufGo, hP, Bool.false_eq_true, if_false]
  | true =>
    simp only [hP, if_true]
    have hj0 : j ≠ 0 := by
      intro h
      subst h
      simp only [gufCand] at hjfree
      rw [hP] at hjfree
      exact absurd hjfree (by simp)
    have hj1 : 1 ≤ j := by omega
    rw [gufCand_one_eq_probe filename _ _ hj1] at heq hjfree
    have hjn : j = n := by
      rcases Nat.lt_trichotomy j n with hlt | heqn | hgt

      · exact absurd (hbusy j hj1 hlt) (by simp [hjfree])
      · exact heqn
      · have hcn : fs.existsP (dest ++ [gufCand filename (splitext filename).1
            (splitext filename).2 1 n]) = true := hjmin n hgt
        rw [gufCand_one_eq_probe filename _ _ hn] at hcn
        rw [hcn] at hfree
        exact absurd hfree (by simp)
    rw [hguf, heq, hjn]

/-- Witness for C5: a folder already holding `report.pdf` makes the
allocator return `report (1).pdf`. -/
theorem get_unique_filename_smallest_witness :
    get_unique_filename fsColl ["d"] "report.pdf" = "report (1).pdf" := by
  rw [get_unique_filename_smallest fsColl ["d"] "report.pdf" 1 (by omega) (by decide)
    (fun m h1 h2 => absurd h2 (by omega))]
  decide

/-- **C10.** The allocator terminates on every finite folder: the probed
names are pairwise distinct, the returned name is not present in the
folder, and one probe per existing entry plus one suffices — any fuel
beyond `|entries| + 2` leaves the result unchanged. -/
theorem get_unique_filename_terminates (fs : FS) (dest : Path) (filename : String) :
    (∀ a b : Nat, probeName (splitext filename).1 (splitext filename).2 a =
        probeName (splitext filename).1 (splitext filename).2 b → a = b) ∧
    fs.existsP (dest ++ [get_unique_filename fs dest filename]) = false ∧
    (∀ extra : Nat,
      gufGo fs dest (splitext filename).1 (splitext filename).2
        ((fs.childNames dest).length + 2 + extra) filename 1 =
      get_unique_filename fs dest filename) := by
  refine ⟨fun a b h => probeName_inj _ _ h, guf_result_free fs dest filename, fun extra => ?_⟩
  exact gufGo_stable fs dest (splitext filename).1 (splitext filename).2
    ((fs.childNames dest).length + 2) filename 1
    (exists_free_probe fs dest (splitext filename).1 (splitext filename).2 filename) extra

/-- Witness for C10: on a concrete folder the returned name is free. -/
theorem get_unique_filename_terminates_witness :
    fsColl.existsP (["d"] ++ [get_unique_filename fsColl ["d"] "report.pdf"]) = false :=
  (get_unique_filename_terminates fsColl ["d"] "report.pdf").2.1

/-- **C6.** `process_file` performs no filesystem mutation and emits no
log line for any path whose parent directory is not a registered watched
root, any hidden filename, or any filename with an in-progress-download
suffix, regardless of extension. -/
theorem process_file_filter_no_mutation (hash : List Nat → Nat)
    (config : List (String × List String)) (targets : List Path) (fs : FS)
    (filepath : Path)
    (h : targets.contains filepath.dropLast = false ∨
         strStartsWith (lastName filepath) "." = true ∨
         strEndsWith (lastName filepath) ".download" = true ∨
         strEndsWith (lastName filepath) ".crdownload" = true ∨
         strEndsWith (lastName filepath) ".part" = true) :
    process_file hash config targets fs filepath = (fs, []) := by
  cases hc : targets.contains filepath.dropLast with
  | false => simp only [process_file, hc, Bool.not_false, if_true]
  | true =>
    rcases h with h | h | h | h | h
    · rw [hc] at h
      exact absurd h (by simp)
    all_goals simp only [process_file, hc, Bool.not_true, Bool.false_eq_true, if_false,
      h, Bool.or_true, Bool.true_or, if_true]

/-- Witness for C6: a hidden file inside the watched root is left alone. -/
theorem process_file_filter_no_mutation_witness :
    process_file hashLen [] [["dl"]] fsMove ["dl", ".hidden"] = (fsMove, []) :=
  process_file_filter_no_mutation hashLen [] [["dl"]] fsMove ["dl", ".hidden"]
    (Or.inr (Or.inl (by decide)))

/-! ## The duplicate scan of `process_file` -/

theorem lookupFile_congr_files {fsA fs : FS} (h : fsA.files = fs.files) (q : Path) :
    fsA.lookupFile q = fs.lookupFile q := by
  simp [FS.lookupFile, h]

theorem eraseFile_files_congr {fsA fs : FS} (h : fsA.files = fs.files) (p : Path) :
    (fsA.eraseFile p).files = (fs.eraseFile p).files := by
  simp [FS.eraseFile, h]

theorem is_duplicate_of_files (hash : List Nat → Nat) (fs : FS) {src dst : Path}
    {fdS fdD : FileData} (hs : fs.lookupFile src = some fdS)
    (hd : fs.lookupFile dst = some fdD) :
    is_duplicate hash fs src dst =
      .ok (decide (fdS.content.length = fdD.content.length) &&
           (hash fdS.content == hash fdD.content)) := by
  have hex : fs.existsP dst = true := by simp [FS.existsP, FS.isFile, hd]
  have hgs : fs.getsize src = .ok fdS.content.length := by simp [FS.getsize, hs]
  have hgd : fs.getsize dst = .ok fdD.content.length := by simp [FS.getsize, hd]
  have hcs : calculate_hash hash fs src = .ok (hash fdS.content) := by
    simp [calculate_hash, FS.readFile, hs]
  have hcd : calculate_hash hash fs dst = .ok (hash fdD.content) := by
    simp [calculate_hash, FS.readFile, hd]
  by_cases hlen : fdS.content.length = fdD.content.length
  · simp only [is_duplicate, hex, Bool.not_true, Bool.false_eq_true, if_false,
      hgs, hgd, hlen, ne_eq, not_true_eq_false, if_false, hcs, hcd]
    simp
  · simp only [is_duplicate, hex, Bool.not_true, Bool.false_eq_true, if_false,
      hgs, hgd]
    rw [if_pos hlen]
    have : decide (fdS.content.length = fdD.content.length) = false := by simp [hlen]
    rw [this, Bool.false_and]

theorem dupLoop_no_match (hash : List Nat → Nat) (fs : FS) (filepath dest : Path)
    {fdS : FileData} (hs : fs.lookupFile filepath = some fdS)
    (hnd : ∀ (name : String) (fd' : FileData),
      fs.lookupFile (dest ++ [name]) = some fd' →
      ¬(fd'.content.length = fdS.content.length ∧ hash fd'.content = hash fdS.content)) :
    ∀ entries, dupLoop hash fs filepath dest entries = .ok (fs, none) := by
  intro entries
  induction entries with
  | nil => rfl
  | cons e rest ih =>
    simp only [dupLoop]
    cases hf : fs.isFile (dest ++ [e]) with
    | false =>
      simp only [Bool.false_eq_true, if_false]
      exact ih
    | true =>
      obtain ⟨fdD, hfd⟩ : ∃ fd', fs.lookupFile (dest ++ [e]) = some fd' := by
        rw [FS.isFile] at hf
        exact Option.isSome_iff_exists.mp hf
      simp only [if_true]
      rw [is_duplicate_of_files hash fs hs hfd]
      have hb : (decide (fdS.content.length = fdD.content.length) &&
          (hash fdS.content == hash fdD.content)) = false := by
        by_cases h1 : fdS.content.length = fdD.content.length
        · have h2 : hash fdD.content ≠ hash fdS.content := by
            intro hh
            exact hnd e fdD hfd ⟨h1.symm, hh⟩
          have : (hash fdS.content == hash fdD.content) = false :=
            beq_eq_false_iff_ne.mpr (fun hh => h2 hh.symm)
          rw [this, Bool.and_false]
        · have : decide (fdS.content.length = fdD.content.length) = false := by simp [h1]
          rw [this, Bool.false_and]
      rw [hb]
      exact ih

theorem dupLoop_found (hash : List Nat → Nat) (fs : FS) (filepath dest : Path)
    {fdS : FileData} (hs : fs.lookupFile filepath = some fdS) :
    ∀ entries,
    (∃ e ∈ entries, ∃ fd', fs.lookupFile (dest ++ [e]) = some fd' ∧
        fd'.content.length = fdS.content.length ∧ hash fd'.content = hash fdS.content) →
    ∃ e', (∃ fd', fs.lookupFile (dest ++ [e']) = some fd' ∧
        fd'.content.length = fdS.content.length ∧ hash fd'.content = hash fdS.content) ∧
      dupLoop hash fs filepath dest entries = .ok (fs.eraseFile filepath, some e') := by
  intro entries
  induction entries with
  | nil =>
    rintro ⟨e, he, _⟩
    simp at he
  | cons e rest ih =>
    rintro ⟨e0, he0, fd0, hfd0, hlen0, hh0⟩
    simp only [dupLoop]
    cases hf : fs.isFile (dest ++ [e]) with
    | false =>
      simp only [Bool.false_eq_true, if_false]
      apply ih
      have hne : e0 ≠ e := by
        intro h
        subst h
        have : fs.isFile (dest ++ [e0]) = true := by simp [FS.isFile, hfd0]
        rw [hf] at this
        exact absurd this (by simp)
      rcases List.mem_cons.mp he0 with h | h
      · exact absurd h hne
      · exact ⟨e0, h, fd0, hfd0, hlen0, hh0⟩
    | true =>
      obtain ⟨fdD, hfd⟩ : ∃ fd', fs.lookupFile (dest ++ [e]) = some fd' := by
        rw [FS.isFile] at hf
        exact Option.isSome_iff_exists.mp hf
      simp only [if_true]
      rw [is_duplicate_of_files hash fs hs hfd]
      cases hb : (decide (fdS.content.length = fdD.content.length) &&
          (hash fdS.content == hash fdD.content)) with
      | true =>
        have hfile : fs.isFile filepath = true := by simp [FS.isFile, hs]
        have hrm : fs.remove filepath = .ok (fs.eraseFile filepath) := by
          simp [FS.remove, hfile]
        rw [hrm]
        obtain ⟨hb1, hb2⟩ := Bool.and_eq_true_iff.mp hb
        refine ⟨e, ⟨fdD, hfd, ?_, ?_⟩, rfl⟩
        · exact (of_decide_eq_true hb1).symm
        · exact (beq_iff_eq.mp hb2).symm
      | false =>
        apply ih
        have hne : e0 ≠ e := by
          intro h
          subst h
          have hsame : fd0 = fdD := by
            rw [hfd0] at hfd
            exact Option.some_inj.mp hfd
          subst hsame
          have : (decide (fdS.content.length = fd0.content.length) &&
              (hash fdS.content == hash fd0.content)) = true := by
            rw [Bool.and_eq_true_iff]
            constructor
            · exact decide_eq_true hlen0.symm
            · exact beq_iff_eq.mpr hh0.symm
          rw [hb] at this
          exact absurd this (by simp)
        rcases List.mem_cons.mp he0 with h | h
        · exact absurd h hne
        · exact ⟨e0, h, fd0, hfd0, hlen0, hh0⟩

/-! ## The success path of `process_file` -/

theorem gufGo_congr (fsA fs : FS) (dest : Path) (stem ext : String)
    (hex : ∀ n : String, fsA.existsP (dest ++ [n]) = fs.existsP (dest ++ [n])) :
    ∀ (fuel : Nat) (cur : String) (counter : Nat),
      gufGo fsA dest stem ext fuel cur counter = gufGo fs dest stem ext fuel cur counter := by
  intro fuel
  induction fuel with
  | zero => intro cur counter; rfl
  | succ fuel ih =>
    intro cur counter
    simp only [gufGo, hex cur]
    cases h : fs.existsP (dest ++ [cur]) with
    | true =>
      simp only [if_true]
      exact ih _ _
    | false => simp only [Bool.false_eq_true, if_false]

theorem get_unique_filename_congr (fsA fs : FS) (dest : Path) (filename : String)
    (hex : ∀ n : String, fsA.existsP (dest ++ [n]) = fs.existsP (dest ++ [n]))
    (hchild : fsA.childNames dest = fs.childNames dest) :
    get_unique_filename fsA dest filename = get_unique_filename fs dest filename := by
  show gufGo fsA dest (splitext filename).1 (splitext filename).2
      ((fsA.childNames dest).length + 2) filename 1 = _
  rw [hchild, gufGo_congr fsA fs dest (splitext filename).1 (splitext filename).2 hex]
  rfl

/-- The body of the `try` block on the no-duplicate success path: with the
destination folder available as a directory (either because it already
existed or after `makedirs`) and no same-size same-digest file inside it,
the body reports the atomic move of the source to the allocated name. -/
theorem processFileTry_success (hash : List Nat → Nat)
    (config : List (String × List String)) (fs fsA : FS) (filepath : Path)
    (fd : FileData)
    (hsrc : fs.lookupFile filepath = some fd)
    (hAfiles : fsA.files = fs.files)
    (hAdir : fsA.isDir (destFolderOf config filepath) = true)
    (hAchild : fsA.childNames (destFolderOf config filepath) =
      fs.childNames (destFolderOf config filepath))
    (hAex : ∀ n : String, fsA.existsP (destFolderOf config filepath ++ [n]) =
      fs.existsP (destFolderOf config filepath ++ [n]))
    (hmkCase : (fs.existsP (destFolderOf config filepath) = true ∧ fsA = fs) ∨
      (fs.existsP (destFolderOf config filepath) = false ∧
        fs.makedirs (destFolderOf config filepath) = .ok fsA))
    (hnodup : ∀ (name : String) (fd' : FileData),
      fs.lookupFile (destFolderOf config filepath ++ [name]) = some fd' →
      ¬(fd'.content.length = fd.content.length ∧ hash fd'.content = hash fd.content)) :
    processFileTry hash config fs filepath filepath.dropLast (lastName filepath) =
      .ok ((fsA.eraseFile filepath).insertFile
          (destFolderOf config filepath ++ [allocatedName config fs filepath]) fd,
        [movedLogMsg (lastName filepath)
          (get_category (lastExt (lastName filepath)) config)
          (allocatedName config fs filepath)]) := by
  have hfile : fs.isFile filepath = true := by simp [FS.isFile, hsrc]
  have hexf : fs.existsP filepath = true := by simp [FS.existsP, hfile]
  have hsrcA : fsA.lookupFile filepath = some fd := by
    rw [lookupFile_congr_files hAfiles]
    exact hsrc
  have hndA : ∀ (name : String) (fd' : FileData),
      fsA.lookupFile (destFolderOf config filepath ++ [name]) = some fd' →
      ¬(fd'.content.length = fd.content.length ∧ hash fd'.content = hash fd.content) := by
    intro name fd' h
    rw [lookupFile_congr_files hAfiles] at h
    exact hnodup name fd' h
  have hlist : fsA.listdir (destFolderOf config filepath) =
      .ok (fsA.childNames (destFolderOf config filepath)) := by
    simp [FS.listdir, hAdir]
  have hdlp : dupLoop hash fsA filepath (destFolderOf config filepath)
      (fsA.childNames (destFolderOf config filepath)) = .ok (fsA, none) :=
    dupLoop_no_match hash fsA filepath (destFolderOf config filepath) hsrcA hndA _
  have hguf : get_unique_filename fsA (destFolderOf config filepath) (lastName filepath) =
      allocatedName config fs filepath := by
    rw [get_unique_filename_congr fsA fs (destFolderOf config filepath)
      (lastName filepath) hAex hAchild]
    rfl
  have hfreeA : fsA.existsP (destFolderOf config filepath ++
      [allocatedName config fs filepath]) = false := by
    rw [hAex]
    exact guf_result_free fs (destFolderOf config filepath) (lastName filepath)
  have hmv : fsA.move filepath
      (destFolderOf config filepath ++ [allocatedName config fs filepath]) =
      .ok ((fsA.eraseFile filepath).insertFile
        (destFolderOf config filepath ++ [allocatedName config fs filepath]) fd) := by
    obtain ⟨hdf, hdd⟩ := existsP_eq_false_parts hfreeA
    simp only [FS.move, hsrcA, hdd, Bool.false_eq_true, if_false,
      path_concat_dropLast, hAdir, Bool.not_true]
  have hfold : filepath.dropLast ++ [get_category (lastExt (lastName filepath)) config] =
      destFolderOf config filepath := rfl
  rcases hmkCase with ⟨hdex, hAeq⟩ | ⟨hdex, hmkeq⟩
  · subst hAeq
    simp only [processFileTry, hexf, Bool.not_true, Bool.false_eq_true, if_false]
    rw [hfold]
    simp only [hdex, Bool.not_true, Bool.false_eq_true, if_false, hlist, hdlp, hguf, hmv]
  · simp only [processFileTry, hexf, Bool.not_true, Bool.false_eq_true, if_false]
    rw [hfold]
    simp only [hdex, Bool.not_false, if_true, hmkeq, hlist, hdlp, hguf, hmv]

/-- **C1.** A source file accepted by `process_file` whose destination
category folder holds no file of equal size and equal digest is moved, not
copied and not left behind: it disappears from its original path, appears
in the destination folder under exactly the name the allocator returns
(a name that did not exist before), with its data byte-identical, and no
other path's file changes. -/
theorem process_file_moves_fresh (hash : List Nat → Nat)
    (config : List (String × List String)) (targets : List Path) (fs : FS)
    (filepath : Path) (fd : FileData)
    (hsrc : fs.lookupFile filepath = some fd)
    (htgt : targets.contains filepath.dropLast = true)
    (hf1 : strStartsWith (lastName filepath) "." = false)
    (hf2 : strEndsWith (lastName filepath) ".download" = false)
    (hf3 : strEndsWith (lastName filepath) ".crdownload" = false)
    (hf4 : strEndsWith (lastName filepath) ".part" = false)
    (hanc : ∀ q ∈ Path.ancestors (destFolderOf config filepath), fs.isFile q = false)
    (hnodup : ∀ (name : String) (fd' : FileData),
      fs.lookupFile (destFolderOf config filepath ++ [name]) = some fd' →
      ¬(fd'.content.length = fd.content.length ∧ hash fd'.content = hash fd.content)) :
    fs.existsP (destFolderOf config filepath ++ [allocatedName config fs filepath]) = false ∧
    (process_file hash config targets fs filepath).1.lookupFile
      (destFolderOf config filepath ++ [allocatedName config fs filepath]) = some fd ∧
    (process_file hash config targets fs filepath).1.lookupFile filepath = none ∧
    (∀ q : Path, q ≠ filepath →
      q ≠ destFolderOf config filepath ++ [allocatedName config fs filepath] →
      (process_file hash config targets fs filepath).1.lookupFile q = fs.lookupFile q) ∧
    (process_file hash config targets fs filepath).2 =
      [movedLogMsg (lastName filepath)
        (get_category (lastExt (lastName filepath)) config)
        (allocatedName config fs filepath)] := by
  have hdne : destFolderOf config filepath ≠ [] := by simp [destFolderOf]
  obtain ⟨fsA, hAfiles, hAdir, hAchild, hAex, hmkCase⟩ :
      ∃ fsA : FS, fsA.files = fs.files ∧
        fsA.isDir (destFolderOf config filepath) = true ∧
        fsA.childNames (destFolderOf config filepath) =
          fs.childNames (destFolderOf config filepath) ∧
        (∀ n : String, fsA.existsP (destFolderOf config filepath ++ [n]) =
          fs.existsP (destFolderOf config filepath ++ [n])) ∧
        ((fs.existsP (destFolderOf config filepath) = true ∧ fsA = fs) ∨
         (fs.existsP (destFolderOf config filepath) = false ∧
           fs.makedirs (destFolderOf config filepath) = .ok fsA)) := by
    cases hdex : fs.existsP (destFolderOf config filepath) with
    | true =>
      refine ⟨fs, rfl, ?_, rfl, fun n => rfl, Or.inl ⟨rfl, rfl⟩⟩
      exact isDir_of_existsP_not_file hdex
        (hanc (destFolderOf config filepath) (self_mem_ancestors hdne))
    | false =>
      exact ⟨fs.mkdirsResult (destFolderOf config filepath), rfl,
        mkdirsResult_isDir_self fs hdex,
        mkdirsResult_childNames_self fs (destFolderOf config filepath),
        mkdirsResult_existsP_concat fs (destFolderOf config filepath),
        Or.inr ⟨rfl, makedirs_ok fs hdex hanc⟩⟩
  have hTry := processFileTry_success hash config fs fsA filepath fd hsrc hAfiles hAdir
    hAchild hAex hmkCase hnodup
  have hpf : process_file hash config targets fs filepath =
      ((fsA.eraseFile filepath).insertFile
          (destFolderOf config filepath ++ [allocatedName config fs filepath]) fd,
        [movedLogMsg (lastName filepath)
          (get_category (lastExt (lastName filepath)) config)
          (allocatedName config fs filepath)]) := by
    simp only [process_file, htgt, Bool.not_true, Bool.false_eq_true, if_false,
      hf1, hf2, hf3, hf4, Bool.or_false, Bool.false_or, Bool.or_self, hTry]
  have hne : filepath ≠
      destFolderOf config filepath ++ [allocatedName config fs filepath] := by
    intro h
    have hlen := congrArg List.length h
    simp only [destFolderOf, List.length_append, List.length_cons,
      List.length_nil] at hlen
    have hdl := List.length_dropLast filepath
    omega
  refine ⟨guf_result_free fs (destFolderOf config filepath) (lastName filepath),
    ?_, ?_, ?_, ?_⟩
  · rw [hpf]
    exact lookupFile_insert_self _ _ _
  · rw [hpf]
    show ((fsA.eraseFile filepath).insertFile _ fd).lookupFile filepath = none
    rw [lookupFile_insert_ne _ fd hne]
    exact lookupFile_erase_self fsA filepath
  · intro q hq1 hq2
    rw [hpf]
    show ((fsA.eraseFile filepath).insertFile _ fd).lookupFile q = _
    rw [lookupFile_insert_ne _ fd hq2, lookupFile_erase_ne fsA hq1]
    exact lookupFile_congr_files hAfiles q
  · rw [hpf]

/-- Witness for C1: a fresh `a.pdf` in the watched root is moved into
`dl/Docs/a.pdf` and vanishes from `dl/a.pdf`. -/
theorem process_file_moves_fresh_witness :
    (process_file hashLen [("Docs", ["pdf"])] [["dl"]] fsMove ["dl", "a.pdf"]).1.lookupFile
        (destFolderOf [("Docs", ["pdf"])] ["dl", "a.pdf"] ++
          [allocatedName [("Docs", ["pdf"])] fsMove ["dl", "a.pdf"]]) =
      some ⟨[1, 2], some 0⟩ ∧
    (process_file hashLen [("Docs", ["pdf"])] [["dl"]] fsMove
        ["dl", "a.pdf"]).1.lookupFile ["dl", "a.pdf"] = none := by
  obtain ⟨h1, h2, h3, h4, h5⟩ := process_file_moves_fresh hashLen [("Docs", ["pdf"])]
    [["dl"]] fsMove ["dl", "a.pdf"] ⟨[1, 2], some 0⟩ (by decide) (by decide) (by decide)
    (by decide) (by decide) (by decide) (by decide)
    (by
      intro name fd' h
      simp [FS.lookupFile, List.lookup, destFolderOf, fsMove] at h)
  exact ⟨h2, h3⟩

/-- **C2.** When some regular file directly inside the destination folder
has the source's size and digest, placement deletes the source and adds
nothing: the resulting state is exactly the original minus the source
file, the destination folder's entries (the matched file included) are
untouched, and the duplicate is logged. -/
theorem process_file_discards_duplicate (hash : List Nat → Nat)
    (config : List (String × List String)) (targets : List Path) (fs : FS)
    (filepath : Path) (fd : FileData)
    (hsrc : fs.lookupFile filepath = some fd)
    (htgt : targets.contains filepath.dropLast = true)
    (hf1 : strStartsWith (lastName filepath) "." = false)
    (hf2 : strEndsWith (lastName filepath) ".download" = false)
    (hf3 : strEndsWith (lastName filepath) ".crdownload" = false)
    (hf4 : strEndsWith (lastName filepath) ".part" = false)
    (hdir : fs.isDir (destFolderOf config filepath) = true)
    (hdup : ∃ (name : String) (fd' : FileData),
      fs.lookupFile (destFolderOf config filepath ++ [name]) = some fd' ∧
      fd'.content.length = fd.content.length ∧ hash fd'.content = hash fd.content) :
    (process_file hash config targets fs filepath).1 = fs.eraseFile filepath ∧
    (process_file hash config targets fs filepath).1.lookupFile filepath = none ∧
    (∀ q : Path, q ≠ filepath →
      (process_file hash config targets fs filepath).1.lookupFile q = fs.lookupFile q) ∧
    (process_file hash config targets fs filepath).1.dirs = fs.dirs ∧
    (process_file hash config targets fs filepath).1.childNames
      (destFolderOf config filepath) = fs.childNames (destFolderOf config filepath) ∧
    (∃ existing : String,
      fs.isFile (destFolderOf config filepath ++ [existing]) = true ∧
      (process_file hash config targets fs filepath).2 =
        [dupLogMsg (lastName filepath) existing]) := by
  have hfile : fs.isFile filepath = true := by simp [FS.isFile, hsrc]
  have hexf : fs.existsP filepath = true := by simp [FS.existsP, hfile]
  have hexd : fs.existsP (destFolderOf config filepath) = true := by
    simp [FS.existsP, hdir]
  have hlist : fs.listdir (destFolderOf config filepath) =
      .ok (fs.childNames (destFolderOf config filepath)) := by
    simp [FS.listdir, hdir]
  obtain ⟨nm, fd', hlk, hlen, hh⟩ := hdup
  have hmem : nm ∈ fs.childNames (destFolderOf config filepath) := by
    apply List.mem_append_left
    rw [mem_fileNamesIn_iff]
    simp [FS.isFile, hlk]
  obtain ⟨e', he'props, hdl⟩ := dupLoop_found hash fs filepath
    (destFolderOf config filepath) hsrc (fs.childNames (destFolderOf config filepath))
    ⟨nm, hmem, fd', hlk, hlen, hh⟩
  have hfold : filepath.dropLast ++ [get_category (lastExt (lastName filepath)) config] =
      destFolderOf config filepath := rfl
  have hTry : processFileTry hash config fs filepath filepath.dropLast
      (lastName filepath) = .ok (fs.eraseFile filepath,
        [dupLogMsg (lastName filepath) e']) := by
    simp only [processFileTry, hexf, Bool.not_true, Bool.false_eq_true, if_false]
    rw [hfold]
    simp only [hexd, Bool.not_true, Bool.false_eq_true, if_false, hlist, hdl]
  have hpf : process_file hash config targets fs filepath =
      (fs.eraseFile filepath, [dupLogMsg (lastName filepath) e']) := by
    simp only [process_file, htgt, Bool.not_true, Bool.false_eq_true, if_false,
      hf1, hf2, hf3, hf4, Bool.or_false, Bool.false_or, Bool.or_self, hTry]
  have hned : filepath.dropLast ≠ destFolderOf config filepath := by
    intro h
    have hlen2 := congrArg List.length h
    simp only [destFolderOf, List.length_append, List.length_cons,
      List.length_nil] at hlen2
    omega
  refine ⟨?_, ?_, ?_, ?_, ?_, e', ?_, ?_⟩
  · rw [hpf]
  · rw [hpf]
    exact lookupFile_erase_self fs filepath
  · intro q hq
    rw [hpf]
    exact lookupFile_erase_ne fs hq
  · rw [hpf]
    rfl
  · rw [hpf]
    exact childNames_erase_ne_parent fs (destFolderOf config filepath) hned
  · obtain ⟨fd'', hfd'', _, _⟩ := he'props
    simp [FS.isFile, hfd'']
  · rw [hpf]

/-- Witness for C2: `dl/a.pdf` matching the content of `dl/Docs/z.pdf` is
deleted and nothing else changes. -/
theorem process_file_discards_duplicate_witness :
    (process_file hashLen [("Docs", ["pdf"])] [["dl"]] fsDup ["dl", "a.pdf"]).1 =
      fsDup.eraseFile ["dl", "a.pdf"] ∧
    (process_file hashLen [("Docs", ["pdf"])] [["dl"]] fsDup
        ["dl", "a.pdf"]).1.lookupFile ["dl", "a.pdf"] = none := by
  obtain ⟨h1, h2, h3, h4, h5, h6⟩ := process_file_discards_duplicate hashLen
    [("Docs", ["pdf"])] [["dl"]] fsDup ["dl", "a.pdf"] ⟨[1, 2], some 0⟩ (by decide)
    (by decide) (by decide) (by decide) (by decide) (by decide) (by decide)
    ⟨"z.pdf", ⟨[1, 2], some 9⟩, by decide, by decide, by decide⟩
  exact ⟨h1, h2⟩

/-- **C3.** `process_file` never propagates an exception: whenever the
`try`-block body (re-existence check, classification, folder creation,
duplicate scan, allocation, move) raises, `process_file` still returns
normally, with the state as the body left it and a single log line naming
the triggering path and the failure reason; the event is dropped. -/
theorem process_file_catches_errors (hash : List Nat → Nat)
    (config : List (String × List String)) (targets : List Path) (fs : FS)
    (filepath : Path) (fsE : FS) (e : PyError)
    (htgt : targets.contains filepath.dropLast = true)
    (hf1 : strStartsWith (lastName filepath) "." = false)
    (hf2 : strEndsWith (lastName filepath) ".download" = false)
    (hf3 : strEndsWith (lastName filepath) ".crdownload" = false)
    (hf4 : strEndsWith (lastName filepath) ".part" = false)
    (hbody : processFileTry hash config fs filepath filepath.dropLast
      (lastName filepath) = .error (fsE, e)) :
    process_file hash config targets fs filepath = (fsE, [errorLogMsg filepath e]) := by
  simp only [process_file, htgt, Bool.not_true, Bool.false_eq_true, if_false,
    hf1, hf2, hf3, hf4, Bool.or_false, Bool.false_or, Bool.or_self, hbody]

/-- Witness for C3: with the category name `Docs` taken by a regular file,
the body raises `NotADirectoryError`, which is caught and logged. -/
theorem process_file_catches_errors_witness :
    process_file hashLen [("Docs", ["pdf"])] [["dl"]] fsErr ["dl", "a.pdf"] =
      (fsErr, [errorLogMsg ["dl", "a.pdf"] (.notADirectory ["dl", "Docs"])]) :=
  process_file_catches_errors hashLen [("Docs", ["pdf"])] [["dl"]] fsErr
    ["dl", "a.pdf"] fsErr (.notADirectory ["dl", "Docs"]) (by decide) (by decide)
    (by decide) (by decide) (by decide) rfl

/-! ## The archival sweep: candidate selection -/

theorem mem_files_to_archive (fs : FS) (root : Path) (thr now : Int) (name : String) :
    name ∈ files_to_archive fs root thr now ↔
      name ∈ fs.fileNamesIn root ∧ name ≠ "archive.zip" ∧
      strStartsWith name "." = false ∧ fs.isFile (root ++ [name]) = true ∧
      ∃ t : Int, fs.getmtime (root ++ [name]) = .ok t ∧ now - t > thr := by
  unfold files_to_archive
  rw [List.mem_filter]
  constructor
  · rintro ⟨hmem, hpred⟩
    refine ⟨hmem, ?_⟩
    by_cases hz : name = "archive.zip"
    · rw [if_pos (by simp [hz])] at hpred
      exact absurd hpred (by simp)
    · cases hh : strStartsWith name "." with
      | true =>
        rw [if_pos (by simp [hh])] at hpred
        exact absurd hpred (by simp)
      | false =>
        rw [if_neg (by simp [hz, hh])] at hpred
        cases hf : fs.isFile (root ++ [name]) with
        | false =>
          rw [hf] at hpred
          exact absurd hpred (by simp)
        | true =>
          rw [hf, if_pos rfl] at hpred
          cases hmt : fs.getmtime (root ++ [name]) with
          | ok t =>
            rw [hmt] at hpred
            exact ⟨hz, rfl, rfl, t, rfl, of_decide_eq_true hpred⟩
          | error e =>
            rw [hmt] at hpred
            exact absurd hpred (by simp)
  · rintro ⟨hmem, hz, hh, hf, t, hmt, hgt⟩
    refine ⟨hmem, ?_⟩
    rw [if_neg (by simp [hz, hh]), hf, if_pos rfl, hmt]
    exact decide_eq_true hgt

/-- **C7.** The files a sweep selects in a visited directory are exactly
the regular files other than `archive.zip`, not hidden, with a readable
modification time strictly older than `days × 86400` seconds before the
sweep's start: the rule is consistent and exclusive at the boundary (a
file aged exactly the threshold is not selected), a file one second past
the threshold is selected, one second short is not, and files with
unreadable modification times are skipped. -/
theorem files_to_archive_characterization (fs : FS) (root : Path) (days : Nat)
    (now : Int) :
    (∀ name : String, name ∈ files_to_archive fs root ((days : Int) * 86400) now ↔
      name ∈ fs.fileNamesIn root ∧ name ≠ "archive.zip" ∧
      strStartsWith name "." = false ∧ fs.isFile (root ++ [name]) = true ∧
      ∃ t : Int, fs.getmtime (root ++ [name]) = .ok t ∧
        now - t > (days : Int) * 86400) ∧
    (∀ (name : String) (t : Int), fs.getmtime (root ++ [name]) = .ok t →
      now - t = (days : Int) * 86400 →
      name ∉ files_to_archive fs root ((days : Int) * 86400) now) ∧
    (∀ name : String, name ∈ fs.fileNamesIn root → name ≠ "archive.zip" →
      strStartsWith name "." = false → fs.isFile (root ++ [name]) = true →
      ∀ t : Int, fs.getmtime (root ++ [name]) = .ok t →
      now - t = (days : Int) * 86400 + 1 →
      name ∈ files_to_archive fs root ((days : Int) * 86400) now) ∧
    (∀ (name : String) (t : Int), fs.getmtime (root ++ [name]) = .ok t →
      now - t = (days : Int) * 86400 - 1 →
      name ∉ files_to_archive fs root ((days : Int) * 86400) now) := by
  refine ⟨mem_files_to_archive fs root ((days : Int) * 86400) now, ?_, ?_, ?_⟩
  · intro name t hmt heq hmem
    obtain ⟨_, _, _, _, t', hmt', hgt⟩ :=
      (mem_files_to_archive fs root ((days : Int) * 86400) now name).mp hmem
    rw [hmt] at hmt'
    cases hmt'
    omega
  · intro name hmem hz hh hf t hmt heq
    exact (mem_files_to_archive fs root ((days : Int) * 86400) now name).mpr
      ⟨hmem, hz, hh, hf, t, hmt, by omega⟩
  · intro name t hmt heq hmem
    obtain ⟨_, _, _, _, t', hmt', hgt⟩ :=
      (mem_files_to_archive fs root ((days : Int) * 86400) now name).mp hmem
    rw [hmt] at hmt'
    cases hmt'
    omega

/-- Witness for C7: a file one second past the five-day threshold is
selected. -/
theorem files_to_archive_characterization_witness :
    "old.pdf" ∈ files_to_archive stArch.fs ["dl", "Docs"]
      (((5 : Nat) : Int) * 86400) 432001 :=
  (files_to_archive_characterization stArch.fs ["dl", "Docs"] 5 432001).2.2.1
    "old.pdf" (by decide) (by decide) (by decide) (by decide) 0 rfl (by decide)

/-! ## The archival sweep: one directory's step -/

theorem foldl_erase_dirs (root : Path) (names : List String) :
    ∀ fs : FS, (names.foldl (fun acc n => acc.eraseFile (root ++ [n])) fs).dirs = fs.dirs := by
  induction names with
  | nil => intro fs; rfl
  | cons n ns ih =>
    intro fs
    rw [List.foldl_cons, ih]
    rfl

theorem foldl_erase_lookup_none (root : Path) (names : List String) :
    ∀ (fs : FS) (q : Path), fs.lookupFile q = none →
      (names.foldl (fun acc n => acc.eraseFile (root ++ [n])) fs).lookupFile q = none := by
  induction names with
  | nil => intro fs q h; exact h
  | cons n ns ih =>
    intro fs q h
    rw [List.foldl_cons]
    apply ih
    by_cases hq : q = root ++ [n]
    · rw [hq]
      exact lookupFile_erase_self fs _
    · rw [lookupFile_erase_ne fs hq]
      exact h

theorem foldl_erase_lookup_mem (root : Path) (names : List String) :
    ∀ (fs : FS) (q : Path), (∃ n ∈ names, q = root ++ [n]) →
      (names.foldl (fun acc n => acc.eraseFile (root ++ [n])) fs).lookupFile q = none := by
  induction names with
  | nil =>
    rintro fs q ⟨n, hn, _⟩
    simp at hn
  | cons n ns ih =>
    rintro fs q ⟨n0, hn0, rfl⟩
    rw [List.foldl_cons]
    rcases List.mem_cons.mp hn0 with h | h
    · subst h
      apply foldl_erase_lookup_none
      exact lookupFile_erase_self fs _
    · exact ih _ _ ⟨n0, h, rfl⟩

theorem foldl_erase_lookup_not_mem (root : Path) (names : List String) :
    ∀ (fs : FS) (q : Path), (∀ n ∈ names, q ≠ root ++ [n]) →
      (names.foldl (fun acc n => acc.eraseFile (root ++ [n])) fs).lookupFile q =
        fs.lookupFile q := by
  induction names with
  | nil => intro fs q _; rfl
  | cons n ns ih =>
    intro fs q h
    rw [List.foldl_cons, ih _ _ (fun m hm => h m (List.mem_cons_of_mem _ hm)),
      lookupFile_erase_ne fs (h n (List.mem_cons_self _ _))]

theorem concat_inj_right {root : Path} {a b : String} (h : root ++ [a] = root ++ [b]) :
    a = b := by
  have := List.append_cancel_left h
  simpa using this

theorem erase_insert_lookup_other (fs : FS) (root : Path) (names : List String)
    (fd0 : FileData) (q : Path) (hq : q.dropLast ≠ root) :
    (names.foldl (fun acc n => acc.eraseFile (root ++ [n]))
      (fs.insertFile (root ++ ["archive.zip"]) fd0)).lookupFile q = fs.lookupFile q := by
  rw [foldl_erase_lookup_not_mem root names _ q
    (fun n _ h => hq (by rw [h]; exact path_concat_dropLast root n))]
  exact lookupFile_insert_ne fs fd0
    (fun h => hq (by rw [h]; exact path_concat_dropLast root "archive.zip"))

theorem erase_insert_lookup_cand (fs : FS) (root : Path) (names : List String)
    (fd0 : FileData) (n : String) (h : n ∈ names) :
    (names.foldl (fun acc n => acc.eraseFile (root ++ [n]))
      (fs.insertFile (root ++ ["archive.zip"]) fd0)).lookupFile (root ++ [n]) = none :=
  foldl_erase_lookup_mem root names _ _ ⟨n, h, rfl⟩

theorem erase_insert_lookup_keep (fs : FS) (root : Path) (names : List String)
    (fd0 : FileData) (n : String) (hn : n ∉ names) (hz : n ≠ "archive.zip") :
    (names.foldl (fun acc n => acc.eraseFile (root ++ [n]))
      (fs.insertFile (root ++ ["archive.zip"]) fd0)).lookupFile (root ++ [n]) =
      fs.lookupFile (root ++ [n]) := by
  rw [foldl_erase_lookup_not_mem root names _ _
    (fun m hm h => hn (by rw [concat_inj_right h]; exact hm))]
  exact lookupFile_insert_ne fs fd0 (fun h => hz (concat_inj_right h))

theorem lookupZip_set_self (zs : List (Path × List (String × List Nat))) (p : Path)
    (v : List (String × List Nat)) : lookupZip (setZip zs p v) p = v := by
  simp [lookupZip, setZip, List.lookup]

theorem archive_dir_of_noStale (zipOk : Path → Bool) (thr now : Int)
    (st : ArchState) (root : Path) (h : NoStale st.fs thr now root) :
    archive_dir zipOk thr now st root = st := by
  unfold NoStale at h
  simp only [archive_dir, h, List.isEmpty_nil, if_true]

theorem archive_dir_isEmpty_false {st : ArchState} {root : Path} {thr now : Int}
    (hc : files_to_archive st.fs root thr now ≠ []) :
    (files_to_archive st.fs root thr now).isEmpty = false := by
  cases he : (files_to_archive st.fs root thr now).isEmpty with
  | false => rfl
  | true => exact absurd (List.isEmpty_iff.mp he) hc

theorem archive_dir_success_fs (zipOk : Path → Bool) (thr now : Int)
    (st : ArchState) (root : Path)
    (hc : files_to_archive st.fs root thr now ≠ [])
    (hz : zipOk (root ++ ["archive.zip"]) = true) :
    (archive_dir zipOk thr now st root).fs =
      (files_to_archive st.fs root thr now).foldl
        (fun acc n => acc.eraseFile (root ++ [n]))
        (st.fs.insertFile (root ++ ["archive.zip"]) ⟨[], some now⟩) := by
  simp only [archive_dir, archive_dir_isEmpty_false hc, Bool.false_eq_true, if_false,
    hz, if_true]

theorem archive_dir_success_zips (zipOk : Path → Bool) (thr now : Int)
    (st : ArchState) (root : Path)
    (hc : files_to_archive st.fs root thr now ≠ [])
    (hz : zipOk (root ++ ["archive.zip"]) = true) :
    (archive_dir zipOk thr now st root).zips =
      setZip st.zips (root ++ ["archive.zip"])
        (lookupZip st.zips (root ++ ["archive.zip"]) ++
          zipEntriesFor st.fs root (files_to_archive st.fs root thr now)) := by
  simp only [archive_dir, archive_dir_isEmpty_false hc, Bool.false_eq_true, if_false,
    hz, if_true]

theorem archive_dir_fail (zipOk : Path → Bool) (thr now : Int)
    (st : ArchState) (root : Path)
    (hz : zipOk (root ++ ["archive.zip"]) = false) :
    (archive_dir zipOk thr now st root).fs = st.fs ∧
    (archive_dir zipOk thr now st root).zips = st.zips ∧
    (files_to_archive st.fs root thr now ≠ [] →
      (archive_dir zipOk thr now st root).log =
        st.log ++ ["Failed to archive in " ++ pathStr root]) := by
  by_cases hc : files_to_archive st.fs root thr now = []
  · rw [archive_dir_of_noStale zipOk thr now st root hc]
    exact ⟨rfl, rfl, fun h => absurd hc h⟩
  · simp only [archive_dir, archive_dir_isEmpty_false hc, Bool.false_eq_true, if_false,
      hz]
    exact ⟨trivial, trivial, fun _ => trivial⟩

theorem archive_dir_dirs (zipOk : Path → Bool) (thr now : Int)
    (st : ArchState) (root : Path) :
    (archive_dir zipOk thr now st root).fs.dirs = st.fs.dirs := by
  by_cases hc : files_to_archive st.fs root thr now = []
  · rw [archive_dir_of_noStale zipOk thr now st root hc]
  · cases hz : zipOk (root ++ ["archive.zip"]) with
    | false => rw [(archive_dir_fail zipOk thr now st root hz).1]
    | true =>
      rw [archive_dir_success_fs zipOk thr now st root hc hz, foldl_erase_dirs]
      rfl

theorem eligible_transfer {fsB fsA : FS} {d : Path} {name : String} {thr now : Int}
    (hlk : fsB.lookupFile (d ++ [name]) = fsA.lookupFile (d ++ [name]))
    (hmem : name ∈ files_to_archive fsB d thr now) :
    name ∈ files_to_archive fsA d thr now := by
  obtain ⟨hmemf, hz, hh, hf, t, hmt, hgt⟩ :=
    (mem_files_to_archive fsB d thr now name).mp hmem
  rw [FS.isFile] at hf
  obtain ⟨fd1, hfd1⟩ := Option.isSome_iff_exists.mp hf
  have hfdA : fsA.lookupFile (d ++ [name]) = some fd1 := by
    rw [← hlk]
    exact hfd1
  have hfA : fsA.isFile (d ++ [name]) = true := by simp [FS.isFile, hfdA]
  have hmtB : fd1.mtime = some t := by
    simp only [FS.getmtime, hfd1] at hmt
    cases hm : fd1.mtime with
    | none =>
      rw [hm] at hmt
      exact absurd hmt (by simp)
    | some t' =>
      rw [hm] at hmt
      simpa using hmt
  refine (mem_files_to_archive fsA d thr now name).mpr
    ⟨?_, hz, hh, hfA, t, ?_, hgt⟩
  · rw [mem_fileNamesIn_iff]
    exact hfA
  · simp [FS.getmtime, hfdA, hmtB]

theorem archive_dir_noStale_self (zipOk : Path → Bool) (thr now : Int)
    (st : ArchState) (root : Path)
    (hz : zipOk (root ++ ["archive.zip"]) = true) :
    NoStale (archive_dir zipOk thr now st root).fs thr now root := by
  by_cases hc : files_to_archive st.fs root thr now = []
  · rw [archive_dir_of_noStale zipOk thr now st root hc]
    exact hc
  · unfold NoStale
    rw [archive_dir_success_fs zipOk thr now st root hc hz]
    by_contra hne
    obtain ⟨name, hmem⟩ := List.exists_mem_of_ne_nil _ hne
    have hzname : name ≠ "archive.zip" :=
      ((mem_files_to_archive _ root thr now name).mp hmem).2.1
    by_cases hcand : name ∈ files_to_archive st.fs root thr now
    · have hlk := erase_insert_lookup_cand st.fs root
        (files_to_archive st.fs root thr now) ⟨[], some now⟩ name hcand
      have hf := ((mem_files_to_archive _ root thr now name).mp hmem).2.2.2.1
      rw [FS.isFile, hlk] at hf
      exact absurd hf (by simp)
    · have hlk := erase_insert_lookup_keep st.fs root
        (files_to_archive st.fs root thr now) ⟨[], some now⟩ name hcand hzname
      exact hcand (eligible_transfer hlk hmem)

theorem archive_dir_noStale_preserve (zipOk : Path → Bool) (thr now : Int)
    (st : ArchState) (root d : Path) (h : NoStale st.fs thr now d) :
    NoStale (archive_dir zipOk thr now st root).fs thr now d := by
  by_cases hc : files_to_archive st.fs root thr now = []
  · rw [archive_dir_of_noStale zipOk thr now st root hc]
    exact h
  · cases hz : zipOk (root ++ ["archive.zip"]) with
    | false =>
      rw [NoStale, (archive_dir_fail zipOk thr now st root hz).1]
      exact h
    | true =>
      by_cases hroot : d = root
      · subst hroot
        exact absurd h hc
      · unfold NoStale
        rw [archive_dir_success_fs zipOk thr now st root hc hz]
        by_contra hne
        obtain ⟨name, hmem⟩ := List.exists_mem_of_ne_nil _ hne
        have hlk := erase_insert_lookup_other st.fs root
          (files_to_archive st.fs root thr now) ⟨[], some now⟩ (d ++ [name])
          (by rw [path_concat_dropLast]; exact hroot)
        have : name ∈ files_to_archive st.fs d thr now := eligible_transfer hlk hmem
        rw [h] at this
        simp at this

/-! ## The archival sweep: traversal as a fold over the visited directories -/

theorem foldl_archive_dirs (zipOk : Path → Bool) (thr now : Int) (L : List Path) :
    ∀ st : ArchState,
      (L.foldl (archive_dir zipOk thr now) st).fs.dirs = st.fs.dirs := by
  induction L with
  | nil => intro st; rfl
  | cons r L ih =>
    intro st
    rw [List.foldl_cons, ih, archive_dir_dirs]

theorem foldl_archive_noStale_preserve (zipOk : Path → Bool) (thr now : Int)
    (L : List Path) :
    ∀ (st : ArchState) (d : Path), NoStale st.fs thr now d →
      NoStale ((L.foldl (archive_dir zipOk thr now) st)).fs thr now d := by
  induction L with
  | nil => intro st d h; exact h
  | cons r L ih =>
    intro st d h
    rw [List.foldl_cons]
    exact ih _ d (archive_dir_noStale_preserve zipOk thr now st r d h)

theorem foldl_archive_noStale_all (zipOk : Path → Bool) (thr now : Int)
    (hz : ∀ p : Path, zipOk p = true) (L : List Path) :
    ∀ st : ArchState, ∀ d ∈ L,
      NoStale ((L.foldl (archive_dir zipOk thr now) st)).fs thr now d := by
  induction L with
  | nil =>
    intro st d hd
    simp at hd
  | cons r L ih =>
    intro st d hd
    rcases List.mem_cons.mp hd with h | h
    · subst h
      rw [List.foldl_cons]
      exact foldl_archive_noStale_preserve zipOk thr now L _ d
        (archive_dir_noStale_self zipOk thr now st d (hz _))
    · rw [List.foldl_cons]
      exact ih _ d h

theorem foldl_archive_of_noStale (zipOk : Path → Bool) (thr now : Int) (L : List Path) :
    ∀ st : ArchState, (∀ d ∈ L, NoStale st.fs thr now d) →
      L.foldl (archive_dir zipOk thr now) st = st := by
  induction L with
  | nil => intro st _; rfl
  | cons r L ih =>
    intro st h
    rw [List.foldl_cons, archive_dir_of_noStale zipOk thr now st r
      (h r (List.mem_cons_self _ _))]
    exact ih st (fun d hd => h d (List.mem_cons_of_mem _ hd))

theorem walk_trace (zipOk : Path → Bool) (thr now : Int) :
    ∀ (fuel : Nat) (st : ArchState) (ws : List Path),
    walk_archive zipOk thr now fuel st ws =
      (visitSeq st.fs.dirs fuel ws).foldl (archive_dir zipOk thr now) st := by
  intro fuel
  induction fuel with
  | zero =>
    intro st ws
    cases ws <;> rfl
  | succ fuel ih =>
    intro st ws
    cases ws with
    | nil => rfl
    | cons root rest =>
      simp only [walk_archive, visitSeq, List.foldl_cons]
      rw [ih (archive_dir zipOk thr now st root)
        (dirChildren (archive_dir zipOk thr now st root).fs.dirs root ++ rest),
        archive_dir_dirs]

theorem run_trace (zipOk : Path → Bool) (days : Nat) (now : Int) :
    ∀ (targets : List Path) (st : ArchState),
    run_archival zipOk days now targets st =
      (runVisits st.fs.dirs targets).foldl
        (archive_dir zipOk ((days : Int) * 86400) now) st := by
  intro targets
  induction targets with
  | nil => intro st; rfl
  | cons t ts ih =>
    intro st
    have h1 : run_archival zipOk days now (t :: ts) st =
        run_archival zipOk days now ts
          (walk_archive zipOk ((days : Int) * 86400) now (walkFuel st.fs.dirs) st
            (topItems st.fs.dirs t)) := by
      simp only [run_archival, List.foldl_cons]
    rw [h1, ih, walk_trace,
      foldl_archive_dirs zipOk ((days : Int) * 86400) now _ st]
    simp only [runVisits]
    rw [List.foldl_append]

/-- **C8.** Deletion only follows a complete bundle write: if the bundle
write for a directory fails, that directory's files and its bundle are
untouched and the failure is logged, while the walk still continues with
the remaining directories; and whenever a file of a visited directory was
deleted by the step, the bundle write succeeded and every selected file's
entry (name and bytes) is in the directory's bundle. -/
theorem archival_failure_preserves_originals (zipOk : Path → Bool) (thr now : Int)
    (st : ArchState) (root : Path) (fuel : Nat) (rest : List Path) :
    (zipOk (root ++ ["archive.zip"]) = false →
      (archive_dir zipOk thr now st root).fs = st.fs ∧
      (archive_dir zipOk thr now st root).zips = st.zips ∧
      (files_to_archive st.fs root thr now ≠ [] →
        (archive_dir zipOk thr now st root).log =
          st.log ++ ["Failed to archive in " ++ pathStr root])) ∧
    (∀ name : String, st.fs.isFile (root ++ [name]) = true →
      (archive_dir zipOk thr now st root).fs.isFile (root ++ [name]) = false →
      zipOk (root ++ ["archive.zip"]) = true ∧
      ∀ c ∈ files_to_archive st.fs root thr now,
        (c, ((st.fs.lookupFile (root ++ [c])).map FileData.content).getD []) ∈
          lookupZip (archive_dir zipOk thr now st root).zips
            (root ++ ["archive.zip"])) ∧
    walk_archive zipOk thr now (fuel + 1) st (root :: rest) =
      walk_archive zipOk thr now fuel (archive_dir zipOk thr now st root)
        (dirChildren st.fs.dirs root ++ rest) := by
  refine ⟨archive_dir_fail zipOk thr now st root, ?_, ?_⟩
  · intro name hbefore hafter
    by_cases hc : files_to_archive st.fs root thr now = []
    · rw [archive_dir_of_noStale zipOk thr now st root hc, hbefore] at hafter
      exact absurd hafter (by simp)
    · cases hz : zipOk (root ++ ["archive.zip"]) with
      | false =>
        rw [(archive_dir_fail zipOk thr now st root hz).1, hbefore] at hafter
        exact absurd hafter (by simp)
      | true =>
        refine ⟨rfl, ?_⟩
        intro c hcmem
        rw [archive_dir_success_zips zipOk thr now st root hc hz, lookupZip_set_self]
        apply List.mem_append_right
        exact List.mem_map.mpr ⟨c, hcmem, rfl⟩
  · simp only [walk_archive]
    rw [archive_dir_dirs]

/-- Witness for C8: with the bundle write failing, a directory holding a
stale file keeps all its files and its bundle. -/
theorem archival_failure_preserves_originals_witness :
    (archive_dir (fun _ => false) (5 * 86400) 1000000 stArch ["dl", "Docs"]).fs =
      stArch.fs ∧
    (archive_dir (fun _ => false) (5 * 86400) 1000000 stArch ["dl", "Docs"]).zips =
      stArch.zips := by
  obtain ⟨h1, h2, h3⟩ := (archival_failure_preserves_originals (fun _ => false)
    (5 * 86400) 1000000 stArch ["dl", "Docs"] 0 []).1 rfl
  exact ⟨h1, h2⟩

/-- **C9.** The sweep is idempotent: after a successful sweep (every
bundle write accepted), immediately running a second sweep with the same
start time archives nothing, deletes nothing, and appends no entry to any
bundle — the filesystem and every bundle are exactly as the first sweep
left them. -/
theorem run_archival_idempotent (zipOk : Path → Bool) (days : Nat) (now : Int)
    (targets : List Path) (st : ArchState) (hz : ∀ p : Path, zipOk p = true) :
    (run_archival zipOk days now targets
        (run_archival zipOk days now targets st)).fs =
      (run_archival zipOk days now targets st).fs ∧
    (run_archival zipOk days now targets
        (run_archival zipOk days now targets st)).zips =
      (run_archival zipOk days now targets st).zips := by
  have htr := run_trace zipOk days now targets st
  have hdirs : (run_archival zipOk days now targets st).fs.dirs = st.fs.dirs := by
    rw [htr]
    exact foldl_archive_dirs zipOk ((days : Int) * 86400) now _ st
  have htr2 := run_trace zipOk days now targets (run_archival zipOk days now targets st)
  rw [hdirs] at htr2
  have hclean : ∀ d ∈ runVisits st.fs.dirs targets,
      NoStale (run_archival zipOk days now targets st).fs ((days : Int) * 86400) now d := by
    intro d hd
    rw [htr]
    exact foldl_archive_noStale_all zipOk ((days : Int) * 86400) now hz _ st d hd
  have hid := foldl_archive_of_noStale zipOk ((days : Int) * 86400) now
    (runVisits st.fs.dirs targets) (run_archival zipOk days now targets st) hclean
  rw [htr2, hid]
  exact ⟨rfl, rfl⟩

/-- Witness for C9: the concrete sweep over `dl` run twice changes nothing
the second time. -/
theorem run_archival_idempotent_witness :
    (run_archival (fun _ => true) 5 1000000 [["dl"]]
        (run_archival (fun _ => true) 5 1000000 [["dl"]] stArch)).fs =
      (run_archival (fun _ => true) 5 1000000 [["dl"]] stArch).fs :=
  (run_archival_idempotent (fun _ => true) 5 1000000 [["dl"]] stArch (fun _ => rfl)).1

end Organizer
